import Mathlib

/-!
Verification of the riverbed HFile reader and region scanner.

Byte strings are modelled as `List Nat` (each element a byte value 0..255);
unsigned 64-bit quantities (timestamps) as `Nat`; Go `int`/`int32`/`int64`
values that can be negative as `Int` with explicit 32/64-bit wrapping where
the Go code truncates. Go functions returning `(T, error)` are modelled as
`Except`-style sums; Go runtime panics (out-of-range indexing) are modelled
as an explicit third outcome where a claim concerns them.
-/

namespace Riverbed

abbrev Bytes := List Nat

/-- Big-endian 16-bit value of two bytes. -/
def be16 (b0 b1 : Nat) : Nat := b0 * 256 + b1

/-- Big-endian 32-bit value of four bytes. -/
def be32 (b0 b1 b2 b3 : Nat) : Nat := ((b0 * 256 + b1) * 256 + b2) * 256 + b3

/-- Big-endian 64-bit value of eight bytes. -/
def be64 (b0 b1 b2 b3 b4 b5 b6 b7 : Nat) : Nat :=
  ((((((b0 * 256 + b1) * 256 + b2) * 256 + b3) * 256 + b4) * 256 + b5) * 256 + b6) * 256 + b7

/-- Big-endian 16-bit read at offset `i` of `l` (both bytes assumed in range). -/
def be16At (l : Bytes) (i : Nat) : Nat := be16 (l.getD i 0) (l.getD (i+1) 0)

/-- Big-endian 32-bit read at offset `i` of `l`. -/
def be32At (l : Bytes) (i : Nat) : Nat :=
  be32 (l.getD i 0) (l.getD (i+1) 0) (l.getD (i+2) 0) (l.getD (i+3) 0)

/-- Big-endian 64-bit read at offset `i` of `l`. -/
def be64At (l : Bytes) (i : Nat) : Nat :=
  be64 (l.getD i 0) (l.getD (i+1) 0) (l.getD (i+2) 0) (l.getD (i+3) 0)
    (l.getD (i+4) 0) (l.getD (i+5) 0) (l.getD (i+6) 0) (l.getD (i+7) 0)

/-- Interpret a value below `2^32` as a signed 32-bit integer (two's complement). -/
def toInt32 (n : Nat) : Int :=
  if n < 2147483648 then (n : Int) else (n : Int) - 4294967296

/-- Interpret a value below `2^64` as a signed 64-bit integer (two's complement). -/
def toInt64 (n : Nat) : Int :=
  if n < 9223372036854775808 then (n : Int) else (n : Int) - 18446744073709551616

/-- Embedding of `compareBytes` (hfile/encoding.go): lexicographic byte-wise
comparison where a strict prefix sorts before any longer key extending it. -/
def compareBytes : Bytes → Bytes → Int
  | [], [] => 0
  | [], _ :: _ => -1
  | _ :: _, [] => 1
  | a :: as, b :: bs => if a < b then -1 else if b < a then 1 else compareBytes as bs

theorem compareBytes_self (a : Bytes) : compareBytes a a = 0 := by
  induction a with
  | nil => rfl
  | cons x xs ih => simp [compareBytes, ih]

theorem compareBytes_eq_zero_iff {a b : Bytes} : compareBytes a b = 0 ↔ a = b := by
  constructor
  · intro h
    induction a generalizing b with
    | nil => cases b with
      | nil => rfl
      | cons y ys => simp [compareBytes] at h
    | cons x xs ih =>
      cases b with
      | nil => simp [compareBytes] at h
      | cons y ys =>
        simp only [compareBytes] at h
        split at h
        · exact absurd h (by norm_num)
        · split at h
          · exact absurd h (by norm_num)
          · have : x = y := by omega
            rw [this, ih h]
  · rintro rfl; exact compareBytes_self a

/-- The comparison value is always −1, 0 or 1. -/
theorem compareBytes_cases (a b : Bytes) :
    compareBytes a b = -1 ∨ compareBytes a b = 0 ∨ compareBytes a b = 1 := by
  induction a generalizing b with
  | nil => cases b <;> simp [compareBytes]
  | cons x xs ih =>
    cases b with
    | nil => simp [compareBytes]
    | cons y ys =>
      simp only [compareBytes]
      split
      · exact Or.inl rfl
      · split
        · exact Or.inr (Or.inr rfl)
        · exact ih ys

theorem compareBytes_swap (a b : Bytes) : compareBytes a b = -compareBytes b a := by
  induction a generalizing b with
  | nil => cases b <;> simp [compareBytes]
  | cons x xs ih =>
    cases b with
    | nil => simp [compareBytes]
    | cons y ys =>
      simp only [compareBytes]
      rcases Nat.lt_trichotomy x y with h | h | h
      · simp [h, show ¬ y < x by omega]
      · simp [show ¬ x < y by omega, show ¬ y < x by omega, ih ys]
      · simp [h, show ¬ x < y by omega]

theorem compareBytes_lt_of_lt_of_le {a b c : Bytes}
    (h1 : compareBytes a b < 0) (h2 : compareBytes b c ≤ 0) : compareBytes a c < 0 := by
  induction a generalizing b c with
  | nil =>
    cases b with
    | nil => simp [compareBytes] at h1
    | cons y ys =>
      cases c with
      | nil => simp [compareBytes] at h2
      | cons z zs => simp [compareBytes]
  | cons x xs ih =>
    cases b with
    | nil => simp [compareBytes] at h1
    | cons y ys =>
      cases c with
      | nil => simp [compareBytes] at h2
      | cons z zs =>
        simp only [compareBytes] at h1 h2 ⊢
        rcases Nat.lt_trichotomy x y with hxy | hxy | hxy
        · -- x < y: from h2, y ≤ z, so x < z
          rcases Nat.lt_trichotomy y z with hyz | hyz | hyz
          · rw [if_pos (by omega)]; omega
          · rw [if_pos (by omega)]; omega
          · rw [if_neg (by omega), if_pos hyz] at h2; omega
        · -- x = y
          rw [if_neg (by omega), if_neg (by omega)] at h1
          rcases Nat.lt_trichotomy y z with hyz | hyz | hyz
          · rw [if_pos (by omega)]; omega
          · rw [if_neg (by omega), if_neg (by omega)] at h2 ⊢
            subst hxy
            exact ih h1 h2
          · rw [if_neg (by omega), if_pos hyz] at h2; omega
        · rw [if_neg (by omega), if_pos hxy] at h1; omega

theorem compareBytes_le_trans {a b c : Bytes}
    (h1 : compareBytes a b ≤ 0) (h2 : compareBytes b c ≤ 0) : compareBytes a c ≤ 0 := by
  rcases lt_or_eq_of_le h1 with h1' | h1'
  · exact le_of_lt (compareBytes_lt_of_lt_of_le h1' h2)
  · have : a = b := compareBytes_eq_zero_iff.mp h1'
    subst this; exact h2

theorem compareBytes_lt_of_le_of_lt {a b c : Bytes}
    (h1 : compareBytes a b ≤ 0) (h2 : compareBytes b c < 0) : compareBytes a c < 0 := by
  rcases lt_or_eq_of_le h1 with h1' | h1'
  · exact compareBytes_lt_of_lt_of_le h1' (le_of_lt h2)
  · have : a = b := compareBytes_eq_zero_iff.mp h1'
    subst this; exact h2

/-! ## Cells and the cell comparator (hfile/cell.go, scanner/comparator.go) -/

/-- Cell type byte values from hfile/cell.go. -/
def cellTypePut : Nat := 4

def cellTypeDelete : Nat := 8

def cellTypeDeleteColumn : Nat := 12

def cellTypeDeleteFamily : Nat := 14

/-- Embedding of `hfile.Cell`: a single HBase cell. The `type` field is the
raw type byte (`CellType` is a byte in the Go source). Tags and value play no
role in comparison or tombstone logic but are carried for faithfulness. -/
structure Cell where
  row : Bytes
  family : Bytes
  qualifier : Bytes
  timestamp : Nat
  type : Nat
  value : Bytes
  tags : Bytes := []
deriving DecidableEq, Repr

/-- Embedding of `CompareCell` (scanner/comparator.go): Row ASC, Family ASC,
Qualifier ASC, Timestamp DESC, Type DESC. -/
def CompareCell (a b : Cell) : Int :=
  let c1 := compareBytes a.row b.row
  if c1 ≠ 0 then c1 else
  let c2 := compareBytes a.family b.family
  if c2 ≠ 0 then c2 else
  let c3 := compareBytes a.qualifier b.qualifier
  if c3 ≠ 0 then c3 else
  if a.timestamp ≠ b.timestamp then (if a.timestamp > b.timestamp then -1 else 1) else
  if a.type ≠ b.type then (if a.type > b.type then -1 else 1) else
  0

/-- Embedding of `CompareCellWithOrder` (scanner/comparator.go): extends
`CompareCell` with the scanner-order tie break, lower order first. -/
def CompareCellWithOrder (a b : Cell) (aOrder bOrder : Int) : Int :=
  if CompareCell a b ≠ 0 then CompareCell a b
  else if aOrder < bOrder then -1
  else if bOrder < aOrder then 1
  else 0

/-! ## Delete tracker (scanner, deleteTracker) -/

/-- Embedding of `DeleteStatus` (scanner): why a Put cell is suppressed. -/
inductive DeleteStatus where
  | notDeleted
  | familyDeleted
  | columnDeleted
  | versionDeleted
deriving DecidableEq, Repr

/-- Embedding of `deleteTracker` (scanner): per-row tombstone state.
Go maps are modelled as functions; `columnDeleteTS` distinguishes a missing
key (`none`) from a present one exactly as the Go two-value map read does. -/
structure DeleteTracker where
  familyDeleteTS : Nat
  columnDeleteTS : Bytes → Option Nat
  versionDeletes : Bytes → Nat → Bool

/-- Embedding of `newDeleteTracker`: all state empty. -/
def newDeleteTracker : DeleteTracker :=
  { familyDeleteTS := 0, columnDeleteTS := fun _ => none, versionDeletes := fun _ _ => false }

/-- Embedding of `deleteTracker.add`: registers a tombstone cell. A missing
`columnDeleteTS` map entry reads as 0 for the max comparison, as in Go. -/
def DeleteTracker.add (dt : DeleteTracker) (c : Cell) : DeleteTracker :=
  if c.type = cellTypeDeleteFamily then
    if c.timestamp > dt.familyDeleteTS then { dt with familyDeleteTS := c.timestamp } else dt
  else if c.type = cellTypeDeleteColumn then
    if c.timestamp > (dt.columnDeleteTS c.qualifier).getD 0 then
      { dt with columnDeleteTS :=
          fun q => if q = c.qualifier then some c.timestamp else dt.columnDeleteTS q }
    else dt
  else if c.type = cellTypeDelete then
    { dt with versionDeletes :=
        fun q t => if q = c.qualifier ∧ t = c.timestamp then true else dt.versionDeletes q t }
  else dt

/-- Embedding of `deleteTracker.isDeleted`: tests a Put against the three
suppression rules in order. Note the `familyDeleteTS > 0` guard and the
two-value map read on `columnDeleteTS`, exactly as in the Go source. -/
def DeleteTracker.isDeleted (dt : DeleteTracker) (c : Cell) : DeleteStatus :=
  if dt.familyDeleteTS > 0 ∧ c.timestamp ≤ dt.familyDeleteTS then .familyDeleted
  else if (match dt.columnDeleteTS c.qualifier with
           | some ts => decide (c.timestamp ≤ ts)
           | none => false) then .columnDeleted
  else if dt.versionDeletes c.qualifier c.timestamp then .versionDeleted
  else .notDeleted

/-! ## Region scanner merge loop (scanner/scanner.go) -/

/-- Embedding of `scanner.Options`. `MaxVersions` is a Go `int`; a
non-positive value never limits (the code tests `> 0`), so it is modelled as
`Nat` with 0 meaning unlimited. `StartKey` only determines the initial heap
seek position and is not part of the emission loop modelled here. -/
structure Options where
  maxVersions : Nat
  endKey : Bytes

/-- Per-row mutable state of `RegionScanner` (currentRow, deletes, versionCounts). -/
structure ScanState where
  currentRow : Bytes
  deletes : DeleteTracker
  versionCounts : Bytes → Nat

/-- Initial `RegionScanner` state: Go's nil `currentRow` equals the empty
byte string under `bytes.Equal`, a fresh tracker, empty counters. -/
def initScanState : ScanState :=
  { currentRow := [], deletes := newDeleteTracker, versionCounts := fun _ => 0 }

/-- Embedding of the `RegionScanner.Next` loop body (scanner/scanner.go),
iterated over the merged cell stream produced by the heap. Each list element
is the cell popped from `kvHeap` in order; the function returns the emitted
cells. The order of tests matches the source: end-key stop, row-change reset,
tombstone registration, delete suppression, version limit, emit. -/
def regionScan (opts : Options) : List Cell → ScanState → List Cell
  | [], _ => []
  | c :: rest, st =>
    if opts.endKey ≠ [] ∧ 0 ≤ compareBytes c.row opts.endKey then []
    else
      let st1 : ScanState :=
        if c.row = st.currentRow then st
        else { currentRow := c.row, deletes := newDeleteTracker, versionCounts := fun _ => 0 }
      if c.type ≠ cellTypePut then
        regionScan opts rest { st1 with deletes := st1.deletes.add c }
      else if st1.deletes.isDeleted c ≠ .notDeleted then
        regionScan opts rest st1
      else if opts.maxVersions > 0 then
        if st1.versionCounts c.qualifier ≥ opts.maxVersions then
          regionScan opts rest st1
        else
          c :: regionScan opts rest
            { st1 with versionCounts :=
                fun q => if q = c.qualifier then st1.versionCounts c.qualifier + 1
                         else st1.versionCounts q }
      else
        c :: regionScan opts rest st1

/-! ## Specification-side description of tombstone suppression (spec §4.6).

These definitions restate the claim's wording directly over the list of
tombstones seen so far in the current row run, for comparison with the
tracker state machine. -/

/-- Maximum timestamp among `DeleteFamily` tombstones in `seen` (0 if none). -/
def maxDeleteFamilyTS (seen : List Cell) : Nat :=
  seen.foldr (fun d acc => if d.type = cellTypeDeleteFamily then max d.timestamp acc else acc) 0

/-- Maximum timestamp among `DeleteColumn` tombstones for qualifier `q` (0 if none). -/
def maxDeleteColumnTS (seen : List Cell) (q : Bytes) : Nat :=
  seen.foldr
    (fun d acc => if d.type = cellTypeDeleteColumn ∧ d.qualifier = q then max d.timestamp acc
                  else acc) 0

/-- Whether `seen` holds a point `Delete` for exactly this qualifier and timestamp. -/
def pointDeleted (seen : List Cell) (q : Bytes) (t : Nat) : Bool :=
  seen.any (fun d => decide (d.type = cellTypeDelete ∧ d.qualifier = q ∧ d.timestamp = t))

/-- Suppression exactly as the claim states it: a Put is suppressed iff its
timestamp is ≤ the maximum DeleteFamily timestamp recorded (when one was
recorded), or ≤ the maximum DeleteColumn timestamp recorded for its qualifier
(when one was recorded), or its exact timestamp was point-deleted — for
every timestamp value including 0. -/
def claimSuppressed (seen : List Cell) (c : Cell) : Bool :=
  (seen.any (fun d => decide (d.type = cellTypeDeleteFamily))
      && decide (c.timestamp ≤ maxDeleteFamilyTS seen))
  || (seen.any (fun d => decide (d.type = cellTypeDeleteColumn ∧ d.qualifier = c.qualifier))
      && decide (c.timestamp ≤ maxDeleteColumnTS seen c.qualifier))
  || pointDeleted seen c.qualifier c.timestamp

/-- Suppression as the code actually behaves (amended claim): DeleteFamily
and DeleteColumn tombstones take effect only when the recorded maximum
timestamp is positive — the tracker uses timestamp 0 as "none recorded" — so
a tombstone with timestamp 0 suppresses nothing under rules (a) and (b);
point deletes (rule c) match exactly, including timestamp 0. -/
def amendedSuppressed (seen : List Cell) (c : Cell) : Bool :=
  (decide (0 < maxDeleteFamilyTS seen) && decide (c.timestamp ≤ maxDeleteFamilyTS seen))
  || (decide (0 < maxDeleteColumnTS seen c.qualifier)
      && decide (c.timestamp ≤ maxDeleteColumnTS seen c.qualifier))
  || pointDeleted seen c.qualifier c.timestamp

/-- Specification-side scan following the claim's words: per row run, keep
the list of tombstones seen so far; never emit a non-Put; emit a Put iff it
is not suppressed (per `supp`) and the per-qualifier emitted counter has not
reached the positive version limit; reset everything when the row changes. -/
def specScan (supp : List Cell → Cell → Bool) (maxV : Nat) :
    List Cell → Bytes → List Cell → (Bytes → Nat) → List Cell
  | [], _, _, _ => []
  | c :: rest, row, seen, counts =>
    let row' := c.row
    let seen' := if c.row = row then seen else []
    let counts' := if c.row = row then counts else fun _ => 0
    if c.type ≠ cellTypePut then
      specScan supp maxV rest row' (seen' ++ [c]) counts'
    else if supp seen' c then
      specScan supp maxV rest row' seen' counts'
    else if maxV > 0 ∧ counts' c.qualifier ≥ maxV then
      specScan supp maxV rest row' seen' counts'
    else
      c :: specScan supp maxV rest row' seen'
        (if maxV > 0 then
          fun q => if q = c.qualifier then counts' c.qualifier + 1 else counts' q
         else counts')

/-! ## Tracker state versus the specification-side tombstone lists -/

/-- Relation between a tracker state and the list of cells fed to `add`
since the last reset. -/
def TrackerRel (dt : DeleteTracker) (seen : List Cell) : Prop :=
  dt.familyDeleteTS = maxDeleteFamilyTS seen ∧
  (∀ q, dt.columnDeleteTS q =
      if 0 < maxDeleteColumnTS seen q then some (maxDeleteColumnTS seen q) else none) ∧
  (∀ q t, dt.versionDeletes q t = pointDeleted seen q t)

theorem trackerRel_nil : TrackerRel newDeleteTracker [] := by
  refine ⟨rfl, fun q => ?_, fun q t => ?_⟩
  · simp [newDeleteTracker, maxDeleteColumnTS]
  · simp [newDeleteTracker, pointDeleted]

theorem foldr_condMax_init (p : Cell → Prop) [DecidablePred p] (l : List Cell) (b : Nat) :
    l.foldr (fun d acc => if p d then max d.timestamp acc else acc) b
      = max (l.foldr (fun d acc => if p d then max d.timestamp acc else acc) 0) b := by
  induction l with
  | nil => simp
  | cons d l ih => by_cases h : p d <;> simp [h, ih, max_assoc]

theorem maxDeleteFamilyTS_append (seen : List Cell) (c : Cell) :
    maxDeleteFamilyTS (seen ++ [c]) =
      if c.type = cellTypeDeleteFamily then max (maxDeleteFamilyTS seen) c.timestamp
      else maxDeleteFamilyTS seen := by
  unfold maxDeleteFamilyTS
  rw [List.foldr_append]
  simp only [List.foldr]
  by_cases h : c.type = cellTypeDeleteFamily
  · rw [if_pos h, if_pos h, foldr_condMax_init (fun d => d.type = cellTypeDeleteFamily)]
    simp [max_comm]
  · rw [if_neg h, if_neg h]

theorem maxDeleteColumnTS_append (seen : List Cell) (c : Cell) (q : Bytes) :
    maxDeleteColumnTS (seen ++ [c]) q =
      if c.type = cellTypeDeleteColumn ∧ c.qualifier = q
      then max (maxDeleteColumnTS seen q) c.timestamp
      else maxDeleteColumnTS seen q := by
  unfold maxDeleteColumnTS
  rw [List.foldr_append]
  simp only [List.foldr]
  by_cases h : c.type = cellTypeDeleteColumn ∧ c.qualifier = q
  · rw [if_pos h, if_pos h,
      foldr_condMax_init (fun d => d.type = cellTypeDeleteColumn ∧ d.qualifier = q)]
    simp [max_comm]
  · rw [if_neg h, if_neg h]

theorem pointDeleted_append (seen : List Cell) (c : Cell) (q : Bytes) (t : Nat) :
    pointDeleted (seen ++ [c]) q t =
      (pointDeleted seen q t
        || decide (c.type = cellTypeDelete ∧ c.qualifier = q ∧ c.timestamp = t)) := by
  simp [pointDeleted, List.any_append]

theorem trackerRel_add {dt : DeleteTracker} {seen : List Cell} (hrel : TrackerRel dt seen)
    (c : Cell) : TrackerRel (dt.add c) (seen ++ [c]) := by
  obtain ⟨h1, h2, h3⟩ := hrel
  have hcol : ∀ q, (dt.columnDeleteTS q).getD 0 = maxDeleteColumnTS seen q := by
    intro q
    rw [h2 q]
    by_cases hm : 0 < maxDeleteColumnTS seen q <;> simp [hm] <;> omega
  unfold TrackerRel DeleteTracker.add
  split_ifs with hdf hgt hdc hgt2 hdd
  -- DeleteFamily, timestamp increases
  · refine ⟨?_, fun q => ?_, fun q t => ?_⟩
    · dsimp only
      rw [maxDeleteFamilyTS_append, if_pos hdf]
      omega
    · dsimp only
      have hcond : ¬(c.type = cellTypeDeleteColumn ∧ c.qualifier = q) := by
        rintro ⟨h, -⟩
        rw [hdf] at h
        simp [cellTypeDeleteColumn, cellTypeDeleteFamily] at h
      rw [maxDeleteColumnTS_append, if_neg hcond]
      exact h2 q
    · dsimp only
      have hde : decide (c.type = cellTypeDelete ∧ c.qualifier = q ∧ c.timestamp = t) = false := by
        simp only [decide_eq_false_iff_not]
        rintro ⟨h, -⟩
        rw [hdf] at h
        simp [cellTypeDelete, cellTypeDeleteFamily] at h
      rw [pointDeleted_append, hde, Bool.or_false]
      exact h3 q t
  -- DeleteFamily, timestamp not larger: tracker unchanged
  · refine ⟨?_, fun q => ?_, fun q t => ?_⟩
    · rw [maxDeleteFamilyTS_append, if_pos hdf]
      omega
    · have hcond : ¬(c.type = cellTypeDeleteColumn ∧ c.qualifier = q) := by
        rintro ⟨h, -⟩
        rw [hdf] at h
        simp [cellTypeDeleteColumn, cellTypeDeleteFamily] at h
      rw [maxDeleteColumnTS_append, if_neg hcond]
      exact h2 q
    · have hde : decide (c.type = cellTypeDelete ∧ c.qualifier = q ∧ c.timestamp = t) = false := by
        simp only [decide_eq_false_iff_not]
        rintro ⟨h, -⟩
        rw [hdf] at h
        simp [cellTypeDelete, cellTypeDeleteFamily] at h
      rw [pointDeleted_append, hde, Bool.or_false]
      exact h3 q t
  -- DeleteColumn, timestamp increases: map entry updated
  · rw [hcol c.qualifier] at hgt2
    refine ⟨?_, fun q => ?_, fun q t => ?_⟩
    · dsimp only
      have hcond : ¬ c.type = cellTypeDeleteFamily := hdf
      rw [maxDeleteFamilyTS_append, if_neg hcond]
      exact h1
    · dsimp only
      rw [maxDeleteColumnTS_append]
      by_cases hq : q = c.qualifier
      · subst hq
        have hcond : c.type = cellTypeDeleteColumn ∧ c.qualifier = c.qualifier := ⟨hdc, rfl⟩
        rw [if_pos rfl, if_pos hcond]
        have hmax : max (maxDeleteColumnTS seen c.qualifier) c.timestamp = c.timestamp := by omega
        rw [hmax, if_pos (show 0 < c.timestamp by omega)]
      · have hcond : ¬(c.type = cellTypeDeleteColumn ∧ c.qualifier = q) := by
          rintro ⟨-, h⟩
          exact hq h.symm
        rw [if_neg hq, if_neg hcond]
        exact h2 q
    · dsimp only
      have hde : decide (c.type = cellTypeDelete ∧ c.qualifier = q ∧ c.timestamp = t) = false := by
        simp only [decide_eq_false_iff_not]
        rintro ⟨h, -⟩
        rw [hdc] at h
        simp [cellTypeDelete, cellTypeDeleteColumn] at h
      rw [pointDeleted_append, hde, Bool.or_false]
      exact h3 q t
  -- DeleteColumn, timestamp not larger: tracker unchanged
  · rw [hcol c.qualifier] at hgt2
    refine ⟨?_, fun q => ?_, fun q t => ?_⟩
    · rw [maxDeleteFamilyTS_append, if_neg hdf]
      exact h1
    · rw [maxDeleteColumnTS_append]
      by_cases hq : q = c.qualifier
      · subst hq
        have hcond : c.type = cellTypeDeleteColumn ∧ c.qualifier = c.qualifier := ⟨hdc, rfl⟩
        rw [if_pos hcond]
        have hmax : max (maxDeleteColumnTS seen c.qualifier) c.timestamp
            = maxDeleteColumnTS seen c.qualifier := by
          omega
        rw [hmax]
        exact h2 c.qualifier
      · have hcond : ¬(c.type = cellTypeDeleteColumn ∧ c.qualifier = q) := by
          rintro ⟨-, h⟩
          exact hq h.symm
        rw [if_neg hcond]
        exact h2 q
    · have hde : decide (c.type = cellTypeDelete ∧ c.qualifier = q ∧ c.timestamp = t) = false := by
        simp only [decide_eq_false_iff_not]
        rintro ⟨h, -⟩
        rw [hdc] at h
        simp [cellTypeDelete, cellTypeDeleteColumn] at h
      rw [pointDeleted_append, hde, Bool.or_false]
      exact h3 q t
  -- point Delete: version set updated
  · refine ⟨?_, fun q => ?_, fun q t => ?_⟩
    · dsimp only
      rw [maxDeleteFamilyTS_append, if_neg hdf]
      exact h1
    · dsimp only
      have hcond : ¬(c.type = cellTypeDeleteColumn ∧ c.qualifier = q) := by
        rintro ⟨h, -⟩
        exact hdc h
      rw [maxDeleteColumnTS_append, if_neg hcond]
      exact h2 q
    · dsimp only
      rw [pointDeleted_append]
      by_cases hq : q = c.qualifier ∧ t = c.timestamp
      · have hde : decide (c.type = cellTypeDelete ∧ c.qualifier = q ∧ c.timestamp = t) = true := by
          simp [hdd, hq.1.symm, hq.2.symm]
        rw [if_pos hq, hde, Bool.or_true]
      · have hde : decide (c.type = cellTypeDelete ∧ c.qualifier = q ∧ c.timestamp = t) = false := by
          simp only [decide_eq_false_iff_not]
          rintro ⟨-, hq1, hq2⟩
          exact hq ⟨hq1.symm, hq2.symm⟩
        rw [if_neg hq, hde, Bool.or_false]
        exact h3 q t
  -- any other type: tracker unchanged
  · refine ⟨?_, fun q => ?_, fun q t => ?_⟩
    · rw [maxDeleteFamilyTS_append, if_neg hdf]
      exact h1
    · have hcond : ¬(c.type = cellTypeDeleteColumn ∧ c.qualifier = q) := by
        rintro ⟨h, -⟩
        exact hdc h
      rw [maxDeleteColumnTS_append, if_neg hcond]
      exact h2 q
    · have hde : decide (c.type = cellTypeDelete ∧ c.qualifier = q ∧ c.timestamp = t) = false := by
        simp only [decide_eq_false_iff_not]
        rintro ⟨h, -⟩
        exact hdd h
      rw [pointDeleted_append, hde, Bool.or_false]
      exact h3 q t


/-- Under the tracker relation, `isDeleted` reporting anything other than
`notDeleted` coincides with the amended suppression predicate. -/
theorem isDeleted_ne_iff {dt : DeleteTracker} {seen : List Cell} (hrel : TrackerRel dt seen)
    (c : Cell) :
    (dt.isDeleted c ≠ .notDeleted) ↔ amendedSuppressed seen c = true := by
  obtain ⟨h1, h2, h3⟩ := hrel
  unfold DeleteTracker.isDeleted amendedSuppressed
  rw [h1, h2 c.qualifier, h3 c.qualifier c.timestamp]
  by_cases hf : 0 < maxDeleteFamilyTS seen ∧ c.timestamp ≤ maxDeleteFamilyTS seen
  · rw [if_pos hf]
    simp [hf.1, hf.2]
  · rw [if_neg hf]
    by_cases hc : 0 < maxDeleteColumnTS seen c.qualifier ∧
        c.timestamp ≤ maxDeleteColumnTS seen c.qualifier
    · have : (match (if 0 < maxDeleteColumnTS seen c.qualifier
            then some (maxDeleteColumnTS seen c.qualifier) else none : Option Nat) with
          | some ts => decide (c.timestamp ≤ ts)
          | none => false) = true := by
        rw [if_pos hc.1]
        simp [hc.2]
      rw [if_pos this]
      simp only [ne_eq, reduceCtorEq, not_false_eq_true, true_iff]
      have : (decide (0 < maxDeleteColumnTS seen c.qualifier)
          && decide (c.timestamp ≤ maxDeleteColumnTS seen c.qualifier)) = true := by
        simp [hc.1, hc.2]
      rw [this]
      simp
    · have hm : (match (if 0 < maxDeleteColumnTS seen c.qualifier
            then some (maxDeleteColumnTS seen c.qualifier) else none : Option Nat) with
          | some ts => decide (c.timestamp ≤ ts)
          | none => false) = false := by
        by_cases h0 : 0 < maxDeleteColumnTS seen c.qualifier
        · rw [if_pos h0]
          simp only [decide_eq_false_iff_not]
          intro hle
          exact hc ⟨h0, hle⟩
        · rw [if_neg h0]
      rw [hm]
      simp only [Bool.false_eq_true, if_false]
      have hfb : (decide (0 < maxDeleteFamilyTS seen)
          && decide (c.timestamp ≤ maxDeleteFamilyTS seen)) = false := by
        rcases Decidable.not_and_iff_or_not.mp hf with h | h <;> simp [h]
      have hcb : (decide (0 < maxDeleteColumnTS seen c.qualifier)
          && decide (c.timestamp ≤ maxDeleteColumnTS seen c.qualifier)) = false := by
        rcases Decidable.not_and_iff_or_not.mp hc with h | h <;> simp [h]
      rw [hfb, hcb]
      by_cases hv : pointDeleted seen c.qualifier c.timestamp
      · rw [if_pos hv]
        simp [hv]
      · rw [if_neg hv]
        simp only [Bool.false_or]
        constructor
        · intro h; exact absurd rfl h
        · intro h
          exact absurd h (by simpa using hv)

/-- The region scanner loop refines the specification-side scan with the
amended suppression predicate: starting from any state whose tracker agrees
with a list `seen` of already-registered cells. -/
theorem regionScan_eq_specScan (v : Nat) (cells : List Cell) :
    ∀ (st : ScanState) (seen : List Cell), TrackerRel st.deletes seen →
      regionScan ⟨v, []⟩ cells st =
        specScan amendedSuppressed v cells st.currentRow seen st.versionCounts := by
  induction cells with
  | nil => intro st seen _; rfl
  | cons c rest ih =>
    intro st seen hrel
    simp only [regionScan, specScan]
    rw [if_neg (by simp)]
    by_cases hrow : c.row = st.currentRow
    · rw [if_pos hrow]
      simp only [if_pos hrow]
      by_cases hput : c.type ≠ cellTypePut
      · rw [if_pos hput, if_pos hput]
        have := ih { st with deletes := st.deletes.add c } (seen ++ [c]) (trackerRel_add hrel c)
        simp only at this
        rw [this, hrow]
      · rw [if_neg hput, if_neg hput]
        by_cases hsup : st.deletes.isDeleted c ≠ .notDeleted
        · rw [if_pos hsup, if_pos ((isDeleted_ne_iff hrel c).mp hsup)]
          have := ih st seen hrel
          rw [this, hrow]
        · rw [if_neg hsup,
            if_neg (fun hx => hsup ((isDeleted_ne_iff hrel c).mpr hx))]
          by_cases hv : v > 0
          · rw [if_pos hv]
            by_cases hcnt : st.versionCounts c.qualifier ≥ v
            · rw [if_pos hcnt, if_pos ⟨hv, hcnt⟩]
              have := ih st seen hrel
              rw [this, hrow]
            · rw [if_neg hcnt, if_neg (by rintro ⟨-, hx⟩; exact hcnt hx)]
              have := ih { st with versionCounts :=
                  fun q => if q = c.qualifier then st.versionCounts c.qualifier + 1
                           else st.versionCounts q } seen hrel
              simp only at this
              rw [this, hrow, if_pos hv]
          · rw [if_neg hv, if_neg (by rintro ⟨hx, -⟩; exact hv hx)]
            have := ih st seen hrel
            rw [this, hrow, if_neg hv]
    · rw [if_neg hrow]
      simp only [if_neg hrow]
      by_cases hput : c.type ≠ cellTypePut
      · rw [if_pos hput, if_pos hput]
        have := ih
          { currentRow := c.row, deletes := newDeleteTracker.add c, versionCounts := fun _ => 0 }
          ([] ++ [c]) (trackerRel_add trackerRel_nil c)
        simp only at this
        rw [this]
      · rw [if_neg hput, if_neg hput]
        by_cases hsup : newDeleteTracker.isDeleted c ≠ .notDeleted
        · rw [if_pos hsup, if_pos ((isDeleted_ne_iff trackerRel_nil c).mp hsup)]
          have := ih
            { currentRow := c.row, deletes := newDeleteTracker, versionCounts := fun _ => 0 }
            [] trackerRel_nil
          simp only at this
          rw [this]
        · rw [if_neg hsup,
            if_neg (fun hx => hsup ((isDeleted_ne_iff trackerRel_nil c).mpr hx))]
          by_cases hv : v > 0
          · rw [if_pos hv]
            by_cases hcnt : (0 : Nat) ≥ v
            · rw [if_pos hcnt, if_pos ⟨hv, hcnt⟩]
              have := ih
                { currentRow := c.row, deletes := newDeleteTracker, versionCounts := fun _ => 0 }
                [] trackerRel_nil
              simp only at this
              rw [this]
            · rw [if_neg hcnt, if_neg (by rintro ⟨-, hx⟩; exact hcnt hx)]
              have := ih
                { currentRow := c.row, deletes := newDeleteTracker, versionCounts :=
                    fun q => if q = c.qualifier then 0 + 1 else 0 }
                [] trackerRel_nil
              simp only at this
              rw [this, if_pos hv]
          · rw [if_neg hv, if_neg (by rintro ⟨hx, -⟩; exact hv hx)]
            have := ih
              { currentRow := c.row, deletes := newDeleteTracker, versionCounts := fun _ => 0 }
              [] trackerRel_nil
            simp only at this
            rw [this, if_neg hv]

/-! ## Version limiting: the emitted Puts per (row, qualifier) are a prefix
of the unlimited scan's output -/

/-- Cells of the scan output restricted to one (row, qualifier) pair. -/
def filterRQ (r q : Bytes) (l : List Cell) : List Cell :=
  l.filter (fun c => decide (c.row = r ∧ c.qualifier = q))

theorem specScan_sublist (supp : List Cell → Cell → Bool) (v : Nat) :
    ∀ (cells : List Cell) (row : Bytes) (seen : List Cell) (counts : Bytes → Nat),
      (specScan supp v cells row seen counts).Sublist cells := by
  intro cells
  induction cells with
  | nil => intro row seen counts; simp [specScan]
  | cons c rest ih =>
    intro row seen counts
    simp only [specScan]
    split_ifs <;> first
      | exact (ih _ _ _).cons c
      | exact (ih _ _ _).cons₂ c

theorem no_future_row {c : Cell} {rest : List Cell} {row : Bytes}
    (hne : ¬ c.row = row) (hge : compareBytes row c.row ≤ 0)
    (hhead : ∀ b ∈ rest, compareBytes c.row b.row ≤ 0) :
    ∀ b ∈ rest, b.row ≠ row := by
  intro b hb heq
  have h1 : compareBytes row c.row < 0 := by
    rcases lt_or_eq_of_le hge with h | h
    · exact h
    · exact absurd (compareBytes_eq_zero_iff.mp h).symm hne
  have h3 := compareBytes_lt_of_lt_of_le h1 (hhead b hb)
  rw [heq, compareBytes_self] at h3
  exact absurd h3 (by norm_num)

theorem filterRQ_specScan_nil (supp : List Cell → Cell → Bool) (v : Nat) (r q : Bytes)
    {cells : List Cell} (row : Bytes) (seen : List Cell) (counts : Bytes → Nat)
    (h : ∀ b ∈ cells, b.row ≠ r) :
    filterRQ r q (specScan supp v cells row seen counts) = [] := by
  have hsub := specScan_sublist supp v cells row seen counts
  unfold filterRQ
  rw [List.filter_eq_nil]
  intro a ha
  have := h a (hsub.subset ha)
  simp [this]

theorem filterRQ_cons_pos {c : Cell} {r q : Bytes} (h : c.row = r ∧ c.qualifier = q)
    (l : List Cell) : filterRQ r q (c :: l) = c :: filterRQ r q l := by
  simp [filterRQ, List.filter_cons, h.1, h.2]

theorem filterRQ_cons_neg {c : Cell} {r q : Bytes} (h : ¬(c.row = r ∧ c.qualifier = q))
    (l : List Cell) : filterRQ r q (c :: l) = filterRQ r q l := by
  simp only [filterRQ, List.filter_cons]
  rw [if_neg (by simpa using h)]

/-- One-step unfolding of the unlimited (`maxV = 0`) scan: the version limit
never fires and the counters are never changed. -/
theorem specScan_zero_cons (supp : List Cell → Cell → Bool) (c : Cell) (rest : List Cell)
    (row : Bytes) (seen : List Cell) (counts : Bytes → Nat) :
    specScan supp 0 (c :: rest) row seen counts =
      if c.type ≠ cellTypePut then
        specScan supp 0 rest c.row ((if c.row = row then seen else []) ++ [c])
          (if c.row = row then counts else fun _ => 0)
      else if supp (if c.row = row then seen else []) c then
        specScan supp 0 rest c.row (if c.row = row then seen else [])
          (if c.row = row then counts else fun _ => 0)
      else
        c :: specScan supp 0 rest c.row (if c.row = row then seen else [])
          (if c.row = row then counts else fun _ => 0) := by
  simp only [specScan]
  rw [if_neg (show ¬((0:Nat) > 0 ∧
        (if c.row = row then counts else fun _ => 0) c.qualifier ≥ 0) from
      fun hx => absurd hx.1 (by norm_num)),
    if_neg (show ¬ (0:Nat) > 0 from by norm_num)]

/-- One-step unfolding of the limited scan when the limit is positive. -/
theorem specScan_pos_cons (supp : List Cell → Cell → Bool) {k : Nat} (hk : 0 < k) (c : Cell)
    (rest : List Cell) (row : Bytes) (seen : List Cell) (counts : Bytes → Nat) :
    specScan supp k (c :: rest) row seen counts =
      if c.type ≠ cellTypePut then
        specScan supp k rest c.row ((if c.row = row then seen else []) ++ [c])
          (if c.row = row then counts else fun _ => 0)
      else if supp (if c.row = row then seen else []) c then
        specScan supp k rest c.row (if c.row = row then seen else [])
          (if c.row = row then counts else fun _ => 0)
      else if k > 0 ∧ (if c.row = row then counts else fun _ => 0) c.qualifier ≥ k then
        specScan supp k rest c.row (if c.row = row then seen else [])
          (if c.row = row then counts else fun _ => 0)
      else
        c :: specScan supp k rest c.row (if c.row = row then seen else [])
          (fun q' => if q' = c.qualifier
            then (if c.row = row then counts else fun _ => 0) c.qualifier + 1
            else (if c.row = row then counts else fun _ => 0) q') := by
  simp only [specScan]
  rw [if_pos (show k > 0 from hk)]

/-- The counter argument is irrelevant to the unlimited scan. -/
theorem specScan_zero_counts (supp : List Cell → Cell → Bool) :
    ∀ (cells : List Cell) (row : Bytes) (seen : List Cell) (c1 c2 : Bytes → Nat),
      specScan supp 0 cells row seen c1 = specScan supp 0 cells row seen c2 := by
  intro cells
  induction cells with
  | nil => intro row seen c1 c2; rfl
  | cons c rest ih =>
    intro row seen c1 c2
    rw [specScan_zero_cons, specScan_zero_cons]
    split_ifs <;> first
      | exact ih _ _ _ _
      | exact congrArg (c :: ·) (ih _ _ _ _)

theorem specScan_filterRQ_take (supp : List Cell → Cell → Bool) {k : Nat} (hk : 0 < k)
    (r q : Bytes) :
    ∀ (cells : List Cell) (row : Bytes) (seen : List Cell) (counts : Bytes → Nat),
      List.Pairwise (fun a b => compareBytes a.row b.row ≤ 0) cells →
      (∀ c ∈ cells, compareBytes row c.row ≤ 0) →
      filterRQ r q (specScan supp k cells row seen counts) =
        (filterRQ r q (specScan supp 0 cells row seen counts)).take
          (if r = row then k - counts q else k) := by
  intro cells
  induction cells with
  | nil =>
    intro row seen counts _ _
    simp [specScan, filterRQ]
  | cons c rest ih =>
    intro row seen counts hpw hge
    obtain ⟨hhead, htail⟩ := List.pairwise_cons.mp hpw
    rw [specScan_pos_cons supp hk, specScan_zero_cons]
    by_cases hcr : c.row = row
    · -- same row run continues
      simp only [if_pos hcr]
      have hge2 : ∀ b ∈ rest, compareBytes c.row b.row ≤ 0 := hhead
      by_cases hput : c.type ≠ cellTypePut
      · rw [if_pos hput, if_pos hput, ih c.row (seen ++ [c]) counts htail hge2, hcr]
      · rw [if_neg hput, if_neg hput]
        by_cases hsup : supp seen c = true
        · rw [if_pos hsup, if_pos hsup, ih c.row seen counts htail hge2, hcr]
        · rw [if_neg hsup, if_neg hsup]
          by_cases hself : c.row = r ∧ c.qualifier = q
          · -- the tracked pair; r = row and q = c.qualifier here
            have hr : r = row := by rw [← hcr, hself.1]
            have hq : q = c.qualifier := hself.2.symm
            rw [filterRQ_cons_pos hself, if_pos hr]
            by_cases hlim : counts c.qualifier ≥ k
            · rw [if_pos ⟨hk, hlim⟩, ih c.row seen counts htail hge2,
                if_pos hself.1.symm]
              have hz : k - counts q = 0 := by rw [hq]; omega
              rw [hz, List.take_zero, List.take_zero]
            · rw [if_neg (fun hx => hlim hx.2), filterRQ_cons_pos hself]
              have hz : k - counts q = (k - counts q - 1) + 1 := by rw [hq]; omega
              rw [hz, List.take_succ_cons]
              refine congrArg (c :: ·) ?_
              rw [ih c.row seen
                  (fun q' => if q' = c.qualifier then counts c.qualifier + 1 else counts q')
                  htail hge2, if_pos hself.1.symm]
              rw [specScan_zero_counts supp rest c.row seen
                  (fun q' => if q' = c.qualifier then counts c.qualifier + 1 else counts q')
                  counts]
              congr 1
              rw [hq, if_pos rfl]
              omega
          · -- a different (row, qualifier) pair: c is invisible to the filter
            rw [filterRQ_cons_neg hself]
            by_cases hlim : counts c.qualifier ≥ k
            · rw [if_pos ⟨hk, hlim⟩, ih c.row seen counts htail hge2, hcr]
            · rw [if_neg (fun hx => hlim hx.2), filterRQ_cons_neg hself]
              rw [ih c.row seen
                  (fun q' => if q' = c.qualifier then counts c.qualifier + 1 else counts q')
                  htail hge2, hcr]
              rw [specScan_zero_counts supp rest row seen
                  (fun q' => if q' = c.qualifier then counts c.qualifier + 1 else counts q')
                  counts]
              congr 1
              by_cases hrc : r = row
              · rw [if_pos hrc, if_pos hrc]
                have hqq : ¬ q = c.qualifier := fun hx =>
                  hself ⟨hcr.trans hrc.symm, hx.symm⟩
                rw [if_neg hqq]
              · rw [if_neg hrc, if_neg hrc]
    · -- row changes: fresh run
      simp only [if_neg hcr]
      have hge2 : ∀ b ∈ rest, compareBytes c.row b.row ≤ 0 := hhead
      by_cases hr : r = row
      · -- the tracked row lies strictly in the past: both sides are empty
        have hnor : ∀ b ∈ rest, b.row ≠ r := by
          subst hr
          exact no_future_row hcr (hge c (by simp)) hhead
        have hnorc : ¬ (c.row = r ∧ c.qualifier = q) := by
          rintro ⟨hx, -⟩
          subst hr
          exact hcr hx
        by_cases hput : c.type ≠ cellTypePut
        · rw [if_pos hput, if_pos hput,
            filterRQ_specScan_nil supp k r q c.row ([] ++ [c]) _ hnor,
            filterRQ_specScan_nil supp 0 r q c.row ([] ++ [c]) _ hnor]
          simp
        · rw [if_neg hput, if_neg hput]
          by_cases hsup : supp [] c = true
          · rw [if_pos hsup, if_pos hsup,
              filterRQ_specScan_nil supp k r q c.row [] _ hnor,
              filterRQ_specScan_nil supp 0 r q c.row [] _ hnor]
            simp
          · rw [if_neg hsup, if_neg hsup,
              if_neg (show ¬(k > 0 ∧ (fun _ => (0:Nat)) c.qualifier ≥ k) from
                by rintro ⟨-, hx⟩; simp at hx; omega)]
            rw [filterRQ_cons_neg hnorc, filterRQ_cons_neg hnorc,
              filterRQ_specScan_nil supp k r q c.row [] _ hnor,
              filterRQ_specScan_nil supp 0 r q c.row [] _ hnor]
            simp
      · -- a row other than the tracked one starts (or continues towards) r
        rw [if_neg hr]
        by_cases hput : c.type ≠ cellTypePut
        · rw [if_pos hput, if_pos hput,
            ih c.row ([] ++ [c]) (fun _ => 0) htail hge2]
          by_cases hrc : r = c.row <;> simp [hrc]
        · rw [if_neg hput, if_neg hput]
          by_cases hsup : supp [] c = true
          · rw [if_pos hsup, if_pos hsup, ih c.row [] (fun _ => 0) htail hge2]
            by_cases hrc : r = c.row <;> simp [hrc]
          · rw [if_neg hsup, if_neg hsup,
              if_neg (show ¬(k > 0 ∧ (fun _ => (0:Nat)) c.qualifier ≥ k) from
                by rintro ⟨-, hx⟩; simp at hx; omega)]
            by_cases hself : c.row = r ∧ c.qualifier = q
            · rw [filterRQ_cons_pos hself, filterRQ_cons_pos hself]
              have hz : k = (k - 1) + 1 := by omega
              rw [hz, List.take_succ_cons, ← hz]
              refine congrArg (c :: ·) ?_
              rw [ih c.row []
                  (fun q' => if q' = c.qualifier then (fun _ => 0 : Bytes → Nat) c.qualifier + 1
                    else (fun _ => 0 : Bytes → Nat) q')
                  htail hge2]
              rw [specScan_zero_counts supp rest c.row []
                  (fun q' => if q' = c.qualifier then (fun _ => 0 : Bytes → Nat) c.qualifier + 1
                    else (fun _ => 0 : Bytes → Nat) q')
                  (fun _ => 0)]
              congr 1
              rw [if_pos hself.1.symm, if_pos hself.2.symm]
            · rw [filterRQ_cons_neg hself, filterRQ_cons_neg hself]
              rw [ih c.row []
                  (fun q' => if q' = c.qualifier then (fun _ => 0 : Bytes → Nat) c.qualifier + 1
                    else (fun _ => 0 : Bytes → Nat) q')
                  htail hge2]
              rw [specScan_zero_counts supp rest c.row []
                  (fun q' => if q' = c.qualifier then (fun _ => 0 : Bytes → Nat) c.qualifier + 1
                    else (fun _ => 0 : Bytes → Nat) q')
                  (fun _ => 0)]
              congr 1
              by_cases hrc : r = c.row
              · rw [if_pos hrc]
                have hqq : ¬ q = c.qualifier := fun hx => hself ⟨hrc.symm, hx.symm⟩
                rw [if_neg hqq]
                simp
              · rw [if_neg hrc]

theorem compareBytes_nil_le (x : Bytes) : compareBytes [] x ≤ 0 := by
  cases x <;> simp [compareBytes]

theorem CompareCell_row_le {a b : Cell} (h : CompareCell a b ≤ 0) :
    compareBytes a.row b.row ≤ 0 := by
  by_cases h1 : compareBytes a.row b.row = 0
  · omega
  · have heq : CompareCell a b = compareBytes a.row b.row := by
      simp only [CompareCell]
      rw [if_pos h1]
    rw [heq] at h
    exact h

theorem CompareCell_ts_ge {a b : Cell} (h : CompareCell a b ≤ 0) (hr : a.row = b.row)
    (hf : a.family = b.family) (hq : a.qualifier = b.qualifier) :
    b.timestamp ≤ a.timestamp := by
  by_cases hts : a.timestamp = b.timestamp
  · omega
  · have heq : CompareCell a b = if a.timestamp > b.timestamp then -1 else 1 := by
      simp only [CompareCell]
      rw [hr, hf, hq]
      simp [compareBytes_self, hts]
    rw [heq] at h
    by_cases hgt : a.timestamp > b.timestamp
    · omega
    · rw [if_neg hgt] at h
      norm_num at h

/-! ## Concrete cells used in counterexamples and witnesses -/

/-- A DeleteFamily tombstone with timestamp 0 on row `r`, family `f`, qualifier `q`. -/
def cellDF0 : Cell :=
  { row := [114], family := [102], qualifier := [113], timestamp := 0,
    type := cellTypeDeleteFamily, value := [] }

/-- A Put with timestamp 0 on the same row/family/qualifier as `cellDF0`. -/
def cellPut0 : Cell :=
  { row := [114], family := [102], qualifier := [113], timestamp := 0,
    type := cellTypePut, value := [118] }

/-- A Put with timestamp 200. -/
def cellPutA : Cell :=
  { row := [114], family := [102], qualifier := [113], timestamp := 200,
    type := cellTypePut, value := [1] }

/-- A Put with timestamp 100, same row/family/qualifier as `cellPutA`. -/
def cellPutB : Cell :=
  { row := [114], family := [102], qualifier := [113], timestamp := 100,
    type := cellTypePut, value := [2] }

/-- C2 counterexample: with a `DeleteFamily` tombstone at timestamp 0 followed
by a Put at timestamp 0 on the same row, the claim's suppression rule (a)
(timestamp ≤ maximum recorded DeleteFamily timestamp, "including timestamp 0")
says the Put is suppressed, but `RegionScanner.Next` emits it: the tracker
keeps `familyDeleteTS = 0` as its "none seen" sentinel, so the timestamp-0
tombstone records nothing. -/
theorem regionScan_timestamp_zero_claim_false :
    regionScan ⟨0, []⟩ [cellDF0, cellPut0] initScanState = [cellPut0] ∧
    specScan claimSuppressed 0 [cellDF0, cellPut0] [] [] (fun _ => 0) = [] ∧
    claimSuppressed [cellDF0] cellPut0 = true :=
  ⟨rfl, rfl, rfl⟩

/-- C2 (amended): for any merged cell stream (no end key), the region scanner
emits exactly what the claim's per-row tombstone rules produce, amended so
that DeleteFamily/DeleteColumn tombstones suppress only when the recorded
maximum timestamp is positive (the tracker uses 0 as "none recorded"); point
deletes match exact timestamps, including 0. Non-Put cells are never emitted
and all tracking is reset whenever the row key changes (both visible in
`specScan`, which recomputes suppression from the tombstones of the current
row run only). -/
theorem regionScan_tombstone_semantics (v : Nat) (cells : List Cell) :
    regionScan ⟨v, []⟩ cells initScanState =
      specScan amendedSuppressed v cells [] [] (fun _ => 0) :=
  regionScan_eq_specScan v cells initScanState [] trackerRel_nil

/-- C3: with `MaxVersions = k > 0`, for every (row, qualifier) pair the
emitted Puts are exactly the first `k` of the non-suppressed Puts of that
pair (hence at most `k`), and — the stream being sorted and single-family —
every emitted Put's timestamp is at least that of every non-emitted
non-suppressed Put of the pair; `MaxVersions = 0` places no limit. The
unlimited scan (`maxVersions = 0`) plays the role of the non-suppressed Put
stream, as established by `regionScan_tombstone_semantics`. -/
theorem regionScan_maxVersions (k : Nat) (cells : List Cell) (r q : Bytes)
    (hsorted : List.Pairwise (fun a b => CompareCell a b ≤ 0) cells)
    (hfam : ∀ a ∈ cells, ∀ b ∈ cells, a.family = b.family) :
    (k = 0 → filterRQ r q (regionScan ⟨k, []⟩ cells initScanState) =
        filterRQ r q (regionScan ⟨0, []⟩ cells initScanState)) ∧
    (0 < k →
      filterRQ r q (regionScan ⟨k, []⟩ cells initScanState) =
        (filterRQ r q (regionScan ⟨0, []⟩ cells initScanState)).take k ∧
      (filterRQ r q (regionScan ⟨k, []⟩ cells initScanState)).length ≤ k ∧
      ∀ p ∈ filterRQ r q (regionScan ⟨k, []⟩ cells initScanState),
        ∀ p' ∈ (filterRQ r q (regionScan ⟨0, []⟩ cells initScanState)).drop k,
          p'.timestamp ≤ p.timestamp) := by
  constructor
  · rintro rfl
    rfl
  · intro hk
    have hrows : List.Pairwise (fun a b : Cell => compareBytes a.row b.row ≤ 0) cells :=
      hsorted.imp (fun h => CompareCell_row_le h)
    have hge : ∀ c ∈ cells, compareBytes [] c.row ≤ 0 := fun c _ => compareBytes_nil_le c.row
    have hmain : filterRQ r q (regionScan ⟨k, []⟩ cells initScanState) =
        (filterRQ r q (regionScan ⟨0, []⟩ cells initScanState)).take k := by
      rw [regionScan_tombstone_semantics, regionScan_tombstone_semantics,
        specScan_filterRQ_take amendedSuppressed hk r q cells [] [] (fun _ => 0) hrows hge]
      by_cases hr : r = ([] : Bytes) <;> simp [hr]
    refine ⟨hmain, ?_, ?_⟩
    · rw [hmain]
      simp only [List.length_take]
      omega
    · intro p hp p' hp'
      -- the unlimited output restricted to (r, q) is sorted and single-family
      set V := filterRQ r q (regionScan ⟨0, []⟩ cells initScanState) with hV
      have hVsub : V.Sublist cells := by
        rw [hV, regionScan_tombstone_semantics]
        exact (List.filter_sublist _).trans
          (specScan_sublist amendedSuppressed 0 cells [] [] (fun _ => 0))
      have hVsorted : List.Pairwise (fun a b => CompareCell a b ≤ 0) V :=
        hsorted.sublist hVsub
      have hsplit := List.pairwise_append.mp
        ((List.take_append_drop k V).symm ▸ hVsorted)
      have hp2 : p ∈ V.take k := by
        rw [← hmain]
        exact hp
      have hrel := hsplit.2.2 p hp2 p' hp'
      have hpV : p ∈ V := List.mem_of_mem_take hp2
      have hp'V : p' ∈ V := List.mem_of_mem_drop hp'
      have hmemp := List.mem_filter.mp (by rw [hV, filterRQ] at hpV; exact hpV)
      have hmemp' := List.mem_filter.mp (by rw [hV, filterRQ] at hp'V; exact hp'V)
      have hpr : p.row = r ∧ p.qualifier = q := by
        have := hmemp.2
        simpa using this
      have hp'r : p'.row = r ∧ p'.qualifier = q := by
        have := hmemp'.2
        simpa using this
      exact CompareCell_ts_ge hrel (by rw [hpr.1, hp'r.1])
        (hfam p (hVsub.subset hpV) p' (hVsub.subset hp'V))
        (by rw [hpr.2, hp'r.2])

/-- C3 witness: two Puts on one (row, qualifier), `MaxVersions = 1` keeps
exactly the most recent one. -/
theorem regionScan_maxVersions_witness :
    filterRQ [114] [113] (regionScan ⟨1, []⟩ [cellPutA, cellPutB] initScanState) =
      (filterRQ [114] [113] (regionScan ⟨0, []⟩ [cellPutA, cellPutB] initScanState)).take 1 :=
  ((regionScan_maxVersions 1 [cellPutA, cellPutB] [114] [113] (by decide)
    (by decide)).2 (by decide)).1

/-! ## C4: comparator characterization and heap tie-break (scanner/heap.go) -/

/-- Specification-side strict order on cells, written directly from the
claim: Row ascending, then Family ascending, then Qualifier ascending, then
Timestamp descending, then Type descending (numerically larger type byte
sorts first). -/
def specLtCell (a b : Cell) : Prop :=
  compareBytes a.row b.row < 0 ∨
  (a.row = b.row ∧ (compareBytes a.family b.family < 0 ∨
    (a.family = b.family ∧ (compareBytes a.qualifier b.qualifier < 0 ∨
      (a.qualifier = b.qualifier ∧ (b.timestamp < a.timestamp ∨
        (a.timestamp = b.timestamp ∧ b.type < a.type)))))))

instance : DecidablePred (fun p : Cell × Cell => specLtCell p.1 p.2) := by
  unfold specLtCell
  infer_instance

/-- Full equality of the five key components. -/
def sameCellKey (a b : Cell) : Prop :=
  a.row = b.row ∧ a.family = b.family ∧ a.qualifier = b.qualifier ∧
  a.timestamp = b.timestamp ∧ a.type = b.type

/-- Embedding of `scannerEntry` (scanner/heap.go): a cursor's current cell
plus its order (lower = newer file = higher priority). -/
structure HeapEntry where
  cell : Cell
  order : Int
deriving DecidableEq, Repr

/-- Embedding of `entryHeap.Less` (scanner/heap.go). -/
def entryLess (a b : HeapEntry) : Bool :=
  decide (CompareCellWithOrder a.cell b.cell a.order b.order < 0)

/-- The element `container/heap` pops next: a `Less`-minimal entry of the
heap's contents (leftmost among `Less`-ties; when the entries carry distinct
orders, `CompareCellWithOrder` is a strict total order and the minimum is
unique, so this models the Go heap exactly). -/
def heapPopFirst : List HeapEntry → Option HeapEntry
  | [] => none
  | e :: es => some (es.foldl (fun m x => if entryLess x m then x else m) e)

theorem compareCell_lt_iff (a b : Cell) :
    (CompareCell a b < 0 ↔ specLtCell a b) ∧ (CompareCell a b = 0 ↔ sameCellKey a b) := by
  simp only [CompareCell, specLtCell, sameCellKey]
  rcases compareBytes_cases a.row b.row with h1 | h1 | h1
  · rw [if_pos (by omega)]
    constructor
    · constructor
      · intro _
        exact Or.inl (by omega)
      · intro _
        omega
    · constructor
      · intro h0
        omega
      · rintro ⟨hr, -⟩
        rw [hr, compareBytes_self] at h1
        omega
  · have hr : a.row = b.row := compareBytes_eq_zero_iff.mp h1
    rw [if_neg (by omega)]
    rcases compareBytes_cases a.family b.family with h2 | h2 | h2
    · rw [if_pos (by omega)]
      constructor
      · constructor
        · intro _
          exact Or.inr ⟨hr, Or.inl (by omega)⟩
        · intro _
          omega
      · constructor
        · intro h0
          omega
        · rintro ⟨-, hf, -⟩
          rw [hf, compareBytes_self] at h2
          omega
    · have hf : a.family = b.family := compareBytes_eq_zero_iff.mp h2
      rw [if_neg (by omega)]
      rcases compareBytes_cases a.qualifier b.qualifier with h3 | h3 | h3
      · rw [if_pos (by omega)]
        constructor
        · constructor
          · intro _
            exact Or.inr ⟨hr, Or.inr ⟨hf, Or.inl (by omega)⟩⟩
          · intro _
            omega
        · constructor
          · intro h0
            omega
          · rintro ⟨-, -, hq, -⟩
            rw [hq, compareBytes_self] at h3
            omega
      · have hq : a.qualifier = b.qualifier := compareBytes_eq_zero_iff.mp h3
        rw [if_neg (by omega)]
        by_cases hts : a.timestamp = b.timestamp
        · rw [if_neg (by omega)]
          by_cases hty : a.type = b.type
          · rw [if_neg (by omega)]
            constructor
            · constructor
              · intro h0
                omega
              · rintro (h | ⟨-, h | ⟨-, h | ⟨-, h | ⟨-, h⟩⟩⟩⟩)
                · rw [hr, compareBytes_self] at h
                  omega
                · rw [hf, compareBytes_self] at h
                  omega
                · rw [hq, compareBytes_self] at h
                  omega
                · omega
                · omega
            · constructor
              · intro _
                exact ⟨hr, hf, hq, hts, hty⟩
              · intro _
                rfl
          · rw [if_pos hty]
            constructor
            · constructor
              · intro h0
                refine Or.inr ⟨hr, Or.inr ⟨hf, Or.inr ⟨hq, Or.inr ⟨hts, ?_⟩⟩⟩⟩
                by_cases hgt : a.type > b.type
                · omega
                · rw [if_neg hgt] at h0
                  omega
              · rintro (h | ⟨-, h | ⟨-, h | ⟨-, h | ⟨-, h⟩⟩⟩⟩)
                · rw [hr, compareBytes_self] at h
                  omega
                · rw [hf, compareBytes_self] at h
                  omega
                · rw [hq, compareBytes_self] at h
                  omega
                · omega
                · rw [if_pos (by omega)]
                  omega
            · constructor
              · intro h0
                by_cases hgt : a.type > b.type
                · rw [if_pos hgt] at h0
                  omega
                · rw [if_neg hgt] at h0
                  omega
              · rintro ⟨-, -, -, -, h⟩
                exact absurd h hty
        · rw [if_pos hts]
          constructor
          · constructor
            · intro h0
              refine Or.inr ⟨hr, Or.inr ⟨hf, Or.inr ⟨hq, Or.inl ?_⟩⟩⟩
              by_cases hgt : a.timestamp > b.timestamp
              · omega
              · rw [if_neg hgt] at h0
                omega
            · rintro (h | ⟨-, h | ⟨-, h | ⟨-, h | ⟨he, h⟩⟩⟩⟩)
              · rw [hr, compareBytes_self] at h
                omega
              · rw [hf, compareBytes_self] at h
                omega
              · rw [hq, compareBytes_self] at h
                omega
              · rw [if_pos (by omega)]
                omega
              · exact absurd he hts
          · constructor
            · intro h0
              by_cases hgt : a.timestamp > b.timestamp
              · rw [if_pos hgt] at h0
                omega
              · rw [if_neg hgt] at h0
                omega
            · rintro ⟨-, -, -, h, -⟩
              exact absurd h hts
      · rw [if_pos (by omega)]
        constructor
        · constructor
          · intro h0
            omega
          · rintro (h | ⟨-, h | ⟨-, h | ⟨hq', -⟩⟩⟩)
            · omega
            · omega
            · omega
            · rw [hq', compareBytes_self] at h3
              omega
        · constructor
          · intro h0
            omega
          · rintro ⟨-, -, hq', -⟩
            rw [hq', compareBytes_self] at h3
            omega
    · rw [if_pos (by omega)]
      constructor
      · constructor
        · intro h0
          omega
        · rintro (h | ⟨-, h | ⟨hf', -⟩⟩)
          · omega
          · omega
          · rw [hf', compareBytes_self] at h2
            omega
      · constructor
        · intro h0
          omega
        · rintro ⟨-, hf', -⟩
          rw [hf', compareBytes_self] at h2
          omega
  · rw [if_pos (by omega)]
    constructor
    · constructor
      · intro h0
        omega
      · rintro (h | ⟨hrow, -⟩)
        · omega
        · rw [hrow, compareBytes_self] at h1
          omega
    · constructor
      · intro h0
        omega
      · rintro ⟨hrow, -⟩
        rw [hrow, compareBytes_self] at h1
        omega

/-- C4: the cell comparator realizes exactly the claimed lexicographic order
(Row ↑, Family ↑, Qualifier ↑, Timestamp ↓, Type ↓); for cells equal in
row/family/qualifier/timestamp the numerically larger type byte sorts first
(e.g. DeleteFamily=14 before Put=4); and when two heap entries hold cells
comparing equal, the entry with the lower order (newer file) is popped first
by the merge heap, in either arrangement. -/
theorem compareCell_ordering_and_tiebreak :
    (∀ a b : Cell,
      (CompareCell a b < 0 ↔ specLtCell a b) ∧ (CompareCell a b = 0 ↔ sameCellKey a b)) ∧
    (∀ a b : Cell, a.row = b.row → a.family = b.family → a.qualifier = b.qualifier →
      a.timestamp = b.timestamp → b.type < a.type → CompareCell a b < 0) ∧
    (∀ e1 e2 : HeapEntry, CompareCell e1.cell e2.cell = 0 → e1.order < e2.order →
      heapPopFirst [e1, e2] = some e1 ∧ heapPopFirst [e2, e1] = some e1) := by
  refine ⟨fun a b => compareCell_lt_iff a b, ?_, ?_⟩
  · intro a b hr hf hq ht hty
    exact (compareCell_lt_iff a b).1.mpr
      (Or.inr ⟨hr, Or.inr ⟨hf, Or.inr ⟨hq, Or.inr ⟨ht, hty⟩⟩⟩⟩)
  · intro e1 e2 h0 hord
    have hkey := (compareCell_lt_iff e1.cell e2.cell).2.mp h0
    have h0' : CompareCell e2.cell e1.cell = 0 :=
      (compareCell_lt_iff e2.cell e1.cell).2.mpr
        ⟨hkey.1.symm, hkey.2.1.symm, hkey.2.2.1.symm, hkey.2.2.2.1.symm, hkey.2.2.2.2.symm⟩
    have hcw21 : CompareCellWithOrder e2.cell e1.cell e2.order e1.order = 1 := by
      unfold CompareCellWithOrder
      rw [if_neg (fun hx => hx h0'), if_neg (by omega), if_pos hord]
    have hcw12 : CompareCellWithOrder e1.cell e2.cell e1.order e2.order = -1 := by
      unfold CompareCellWithOrder
      rw [if_neg (fun hx => hx h0), if_pos hord]
    constructor
    · show some (if entryLess e2 e1 then e2 else e1) = some e1
      rw [if_neg (by simp [entryLess, hcw21])]
    · show some (if entryLess e1 e2 then e1 else e2) = some e1
      rw [if_pos (by simp [entryLess, hcw12])]

/-- C4 witness: DeleteFamily sorts before Put at equal key, and a two-entry
heap with equal cells pops the lower-order (newer) entry first. -/
theorem compareCell_ordering_and_tiebreak_witness :
    CompareCell cellDF0 cellPut0 < 0 ∧
    heapPopFirst [⟨cellPutA, 0⟩, ⟨cellPutA, 1⟩] = some ⟨cellPutA, 0⟩ ∧
    heapPopFirst [⟨cellPutA, 1⟩, ⟨cellPutA, 0⟩] = some ⟨cellPutA, 0⟩ := by
  refine ⟨compareCell_ordering_and_tiebreak.2.1 cellDF0 cellPut0 rfl rfl rfl rfl (by decide),
    ?_, ?_⟩
  · exact (compareCell_ordering_and_tiebreak.2.2 ⟨cellPutA, 0⟩ ⟨cellPutA, 1⟩
      (by decide) (by decide)).1
  · exact (compareCell_ordering_and_tiebreak.2.2 ⟨cellPutA, 0⟩ ⟨cellPutA, 1⟩
      (by decide) (by decide)).2

/-! ## Bloom filter (hfile/encoding.go): MurmurHash2, chunk lookup, membership.

32-bit values are carried as bit patterns (`Nat < 2^32`); `toInt32` recovers
the signed value where the Go code compares or takes a remainder. -/

/-- Wrap to a 32-bit pattern. -/
def w32 (n : Nat) : Nat := n % 4294967296

/-- Sign-extend a byte to a 32-bit two's-complement pattern (`int32(int8(b))`). -/
def sx8 (b : Nat) : Nat := if b < 128 then b else 0xFFFFFF00 + b

/-- The MurmurHash2 multiplicative constant `m = 0x5bd1e995`. -/
def murmurM : Nat := 0x5bd1e995

/-- One 4-byte little-endian block of the key, as in the Go block loop. -/
def murmurBlockAt (key : Bytes) (i : Nat) : Nat :=
  key.getD (4*i) 0 + key.getD (4*i+1) 0 * 256 + key.getD (4*i+2) 0 * 65536 +
    key.getD (4*i+3) 0 * 16777216

/-- The block-mixing step of MurmurHash2 (`k *= m; k ^= k >>> 24; k *= m;
h *= m; h ^= k`), on 32-bit patterns. -/
def murmurMix (h k : Nat) : Nat :=
  let k1 := w32 (k * murmurM)
  let k2 := k1 ^^^ (k1 >>> 24)
  let k3 := w32 (k2 * murmurM)
  (w32 (h * murmurM)) ^^^ k3

/-- Embedding of `murmurHash` (hfile/encoding.go): MurmurHash2 as used by
HBase, returning the 32-bit result pattern. -/
def murmurHash (key : Bytes) (seed : Nat) : Nat :=
  let length := key.length
  let h0 := w32 seed ^^^ w32 length
  let nblocks := length / 4
  let h1 := (List.range nblocks).foldl (fun h i => murmurMix h (murmurBlockAt key i)) h0
  let tail := nblocks * 4
  let left := length - tail
  let h2 := if 3 ≤ left then h1 ^^^ w32 (sx8 (key.getD (tail+2) 0) <<< 16) else h1
  let h3 := if 2 ≤ left then h2 ^^^ w32 (sx8 (key.getD (tail+1) 0) <<< 8) else h2
  let h4 := if 1 ≤ left then w32 ((h3 ^^^ sx8 (key.getD tail 0)) * murmurM) else h3
  let h5 := h4 ^^^ (h4 >>> 13)
  let h6 := w32 (h5 * murmurM)
  h6 ^^^ (h6 >>> 15)

/-- Embedding of `checkBit` (hfile/encoding.go). Go indexes `data[pos>>3]`
directly; every call made by `containsInChunk` is in range, and the model
reads 0 for an out-of-range byte. -/
def checkBit (data : Bytes) (pos : Nat) : Bool :=
  decide (data.getD (pos >>> 3) 0 &&& (1 <<< (pos &&& 7)) ≠ 0)

/-- The bit position the i-th probe tests: `|((h1 + i*h2) as int32) tmod
(bloomBitSize as int32)|`, matching the Go loop where `compositeHash` starts
at `hash1` and `hash2` is added each iteration with 32-bit wraparound. -/
def bloomProbe (key : Bytes) (bloomBitSize : Nat) (i : Nat) : Nat :=
  let h1 := murmurHash key 0
  let h2 := murmurHash key h1
  ((toInt32 (w32 (h1 + i * h2))).tmod (toInt32 (w32 bloomBitSize))).natAbs

/-- The probe loop of `containsInChunk`: `n` probes remaining, `comp` the
current composite hash pattern. -/
def bloomLoop (data : Bytes) (h2 : Nat) : Nat → Nat → Bool
  | 0, _ => true
  | n+1, comp =>
    let hashLoc := ((toInt32 comp).tmod (toInt32 (w32 (data.length * 8)))).natAbs
    if checkBit data hashLoc then bloomLoop data h2 n (w32 (comp + h2)) else false

/-- Embedding of `BloomFilter.containsInChunk` (hfile/encoding.go):
double hashing with `HashCount` probes; empty chunk data ⇒ false. -/
def containsInChunk (hashCount : Int) (key : Bytes) (bloomData : Bytes) : Bool :=
  let hash1 := murmurHash key 0
  let hash2 := murmurHash key hash1
  if bloomData.length * 8 = 0 then false
  else bloomLoop bloomData hash2 hashCount.toNat hash1

/-- Embedding of the binary-search loop of `BloomFilter.findChunk`:
last entry whose key ≤ the given key, or −1. -/
def findChunkAux (keys : List Bytes) (key : Bytes) : Int → Int → Int → Int :=
  fun lo hi result =>
    if h : lo ≤ hi then
      let mid := lo + ((hi - lo).toNat / 2 : Nat)
      if 0 ≤ compareBytes key (keys.getD mid.toNat []) then
        findChunkAux keys key (mid + 1) hi mid
      else
        findChunkAux keys key lo (mid - 1) result
    else result
termination_by lo hi _ => (hi + 1 - lo).toNat
decreasing_by
  · omega
  · omega

/-- Embedding of `BloomFilter.findChunk` (hfile/encoding.go). -/
def findChunk (keys : List Bytes) (key : Bytes) : Int :=
  findChunkAux keys key 0 ((keys.length : Int) - 1) (-1)

/-- Embedding of `BloomFilter.MayContain` (hfile/encoding.go). The chunk
index is the list of chunk-index entry keys (`NumChunks` equals its length
after a successful parse); `chunks` abstracts `ReadBlock` of a chunk's
decompressed bit array (a failing chunk read surfaces an error in Go and is
outside this model). -/
def mayContain (entryKeys : List Bytes) (chunks : Nat → Bytes) (hashCount : Int)
    (key : Bytes) : Bool :=
  if entryKeys.length = 0 then true
  else
    let idx := findChunk entryKeys key
    if idx < 0 then false
    else containsInChunk hashCount key (chunks idx.toNat)

/-- Modelled from the spec: bloom insertion is not part of this repository
(HFiles are written by HBase); §4.5 requires that a key inserted into a chunk
sets exactly the probed bits, so that `MayContain` can never report an
inserted key absent. `setBit` sets one probed bit. -/
def setBit (data : Bytes) (pos : Nat) : Bytes :=
  data.set (pos >>> 3) (data.getD (pos >>> 3) 0 ||| (1 <<< (pos &&& 7)))

/-- Modelled from the spec: insert a key into a chunk by setting the bits of
all `HashCount` probe positions. -/
def bloomInsertChunk (hashCount : Int) (key : Bytes) (data : Bytes) : Bytes :=
  (List.range hashCount.toNat).foldl
    (fun d i => setBit d (bloomProbe key (data.length * 8) i)) data

/-! ## Bloom-filter correctness lemmas -/

theorem natAbs_tmod_lt (a : Int) {b : Int} (hb : 0 < b) :
    (a.tmod b).natAbs < b.natAbs := by
  cases a with
  | ofNat m =>
    cases b with
    | ofNat n =>
      have hn : 0 < n := Int.ofNat_lt.mp hb
      simp only [Int.tmod, Int.natAbs_ofNat]
      exact Nat.mod_lt m hn
    | negSucc n => exact absurd hb (not_lt.mpr (le_of_lt (Int.negSucc_lt_zero n)))
  | negSucc m =>
    cases b with
    | ofNat n =>
      have hn : 0 < n := Int.ofNat_lt.mp hb
      simp only [Int.tmod, Int.natAbs_neg, Int.natAbs_ofNat]
      exact Nat.mod_lt _ hn
    | negSucc n => exact absurd hb (not_lt.mpr (le_of_lt (Int.negSucc_lt_zero n)))

theorem w32_lt (n : Nat) : w32 n < 4294967296 := by
  unfold w32
  omega

theorem w32_add_left (a b : Nat) : w32 (w32 a + b) = w32 (a + b) := by
  unfold w32
  omega

theorem murmurHash_lt (key : Bytes) (seed : Nat) : murmurHash key seed < 4294967296 := by
  unfold murmurHash
  have h32 : (4294967296 : Nat) = 2^32 := by norm_num
  rw [h32]
  apply Nat.xor_lt_two_pow
  · rw [← h32]
    exact w32_lt _
  · have hle : ∀ x k : Nat, x >>> k ≤ x := by
      intro x k
      rw [Nat.shiftRight_eq_div_pow]
      exact Nat.div_le_self _ _
    apply lt_of_le_of_lt (hle _ 15)
    rw [← h32]
    exact w32_lt _

theorem getD_set (l : List Nat) (i j v : Nat) :
    (l.set i v).getD j 0 = if i = j ∧ i < l.length then v else l.getD j 0 := by
  induction l generalizing i j with
  | nil => simp
  | cons x xs ih =>
    cases i with
    | zero =>
      cases j with
      | zero => simp
      | succ j => simp
    | succ i =>
      cases j with
      | zero => simp
      | succ j =>
        simp only [List.set, List.getD_cons_succ, List.length_cons, ih i j]
        by_cases h : i = j ∧ i < xs.length
        · rw [if_pos h, if_pos ⟨by omega, by omega⟩]
        · rw [if_neg h, if_neg (by omega)]

theorem checkBit_eq_testBit (data : Bytes) (pos : Nat) :
    checkBit data pos = (data.getD (pos >>> 3) 0).testBit (pos &&& 7) := by
  unfold checkBit
  rw [Nat.one_shiftLeft, Nat.and_two_pow]
  cases h : (data.getD (pos >>> 3) 0).testBit (pos &&& 7) <;> simp [h]

theorem checkBit_setBit_self (data : Bytes) (pos : Nat) (h : pos >>> 3 < data.length) :
    checkBit (setBit data pos) pos = true := by
  rw [checkBit_eq_testBit]
  unfold setBit
  rw [getD_set, if_pos ⟨rfl, h⟩, Nat.one_shiftLeft, Nat.testBit_or]
  simp [Nat.testBit_two_pow_self]

theorem checkBit_setBit_mono {data : Bytes} {pos : Nat} (p' : Nat)
    (h : checkBit data pos = true) : checkBit (setBit data p') pos = true := by
  rw [checkBit_eq_testBit] at h ⊢
  unfold setBit
  rw [getD_set]
  by_cases hij : p' >>> 3 = pos >>> 3 ∧ p' >>> 3 < data.length
  · rw [if_pos hij, hij.1, Nat.one_shiftLeft, Nat.testBit_or, h, Bool.true_or]
  · rw [if_neg hij]
    exact h

theorem setBit_length (data : Bytes) (pos : Nat) : (setBit data pos).length = data.length := by
  unfold setBit
  exact List.length_set data _ _

theorem insertFold_length (key data : Bytes) (bits : Nat) (n : Nat) :
    ((List.range n).foldl (fun d j => setBit d (bloomProbe key bits j)) data).length
      = data.length := by
  induction n with
  | zero => rfl
  | succ n ih =>
    rw [List.range_succ, List.foldl_append, List.foldl_cons, List.foldl_nil, setBit_length, ih]

theorem bloomProbe_lt (key : Bytes) {bits : Nat} (h0 : 0 < bits) (hs : bits < 2147483648)
    (i : Nat) : bloomProbe key bits i < bits := by
  unfold bloomProbe
  have hw : w32 bits = bits := Nat.mod_eq_of_lt (by omega)
  rw [hw]
  have ht : toInt32 bits = (bits : Int) := by
    unfold toInt32
    rw [if_pos (by exact_mod_cast hs)]
  rw [ht]
  have := @natAbs_tmod_lt
    (toInt32 (w32 (murmurHash key 0 + i * murmurHash key (murmurHash key 0))))
    ((bits : Int)) (by exact_mod_cast h0)
  simpa using this

theorem insertFold_probes_set (key data : Bytes) (hlen : 0 < data.length)
    (hs : data.length * 8 < 2147483648) (n : Nat) :
    ∀ i < n, checkBit
      ((List.range n).foldl (fun d j => setBit d (bloomProbe key (data.length * 8) j)) data)
      (bloomProbe key (data.length * 8) i) = true := by
  induction n with
  | zero => omega
  | succ n ih =>
    intro i hi
    rw [List.range_succ, List.foldl_append, List.foldl_cons, List.foldl_nil]
    by_cases hin : i < n
    · exact checkBit_setBit_mono _ (ih i hin)
    · have hieq : i = n := by omega
      subst hieq
      apply checkBit_setBit_self
      rw [insertFold_length]
      have hpr := @bloomProbe_lt key (data.length * 8) (by omega) hs i
      have hdiv : bloomProbe key (data.length * 8) i >>> 3
          = bloomProbe key (data.length * 8) i / 8 := by
        rw [Nat.shiftRight_eq_div_pow]
      omega

theorem bloomLoop_probe (key data : Bytes) (n : Nat) :
    ∀ i0 : Nat, bloomLoop data (murmurHash key (murmurHash key 0)) n
        (w32 (murmurHash key 0 + i0 * murmurHash key (murmurHash key 0))) = true ↔
      ∀ j < n, checkBit data (bloomProbe key (data.length * 8) (i0 + j)) = true := by
  induction n with
  | zero =>
    intro i0
    simp [bloomLoop]
  | succ n ih =>
    intro i0
    unfold bloomLoop
    by_cases hc : checkBit data (bloomProbe key (data.length * 8) i0) = true
    · rw [if_pos (by exact hc)]
      rw [w32_add_left]
      have harith : w32 (murmurHash key 0 + i0 * murmurHash key (murmurHash key 0)
            + murmurHash key (murmurHash key 0))
          = w32 (murmurHash key 0 + (i0 + 1) * murmurHash key (murmurHash key 0)) := by
        congr 1
        ring
      rw [harith, ih (i0 + 1)]
      constructor
      · intro hall j hj
        cases j with
        | zero => simpa using hc
        | succ j =>
          have := hall j (by omega)
          rw [show i0 + 1 + j = i0 + (j + 1) from by omega] at this
          exact this
      · intro hall j hj
        have := hall (j + 1) (by omega)
        rw [show i0 + (j + 1) = i0 + 1 + j from by omega] at this
        exact this
    · rw [if_neg (by exact hc)]
      simp only [Bool.false_eq_true, false_iff]
      intro hall
      exact hc (by simpa using hall 0 (by omega))

theorem containsInChunk_iff (hashCount : Int) (key data : Bytes) :
    containsInChunk hashCount key data = true ↔
      (0 < data.length ∧ ∀ i < hashCount.toNat,
        checkBit data (bloomProbe key (data.length * 8) i) = true) := by
  unfold containsInChunk
  by_cases h0 : data.length * 8 = 0
  · rw [if_pos h0]
    simp only [Bool.false_eq_true, false_iff]
    rintro ⟨hl, -⟩
    omega
  · rw [if_neg h0]
    have hstart : murmurHash key 0
        = w32 (murmurHash key 0 + 0 * murmurHash key (murmurHash key 0)) := by
      rw [Nat.zero_mul, Nat.add_zero]
      exact (Nat.mod_eq_of_lt (murmurHash_lt key 0)).symm
    nth_rewrite 2 [hstart]
    rw [bloomLoop_probe key data hashCount.toNat 0]
    constructor
    · intro h
      exact ⟨by omega, fun i hi => by simpa using h i hi⟩
    · intro h i hi
      simpa using h.2 i hi

/-- C9: `MayContain` returns true ("maybe present") when the filter has no
chunks. Within a chunk, the code computes `h1 = hash(key, 0)` and
`h2 = hash(key, h1)` with MurmurHash2 and, for `i < HashCount`, tests bit
`|(h1 + i·h2) mod chunkBits|` (32-bit wraparound, truncated remainder,
absolute value — `bloomProbe`); it returns true iff the chunk is non-empty
and every tested bit is set, hence false as soon as any tested bit is unset.
Consequently a key inserted into a chunk (insertion modelled from the spec:
it sets exactly the probed bits) is never reported absent. -/
theorem bloom_mayContain_semantics :
    (∀ (chunks : Nat → Bytes) (hashCount : Int) (key : Bytes),
        mayContain [] chunks hashCount key = true) ∧
    (∀ (hashCount : Int) (key data : Bytes),
        containsInChunk hashCount key data = true ↔
          (0 < data.length ∧ ∀ i < hashCount.toNat,
            checkBit data (bloomProbe key (data.length * 8) i) = true)) ∧
    (∀ (hashCount : Int) (key data : Bytes), 0 < data.length →
        data.length * 8 < 2147483648 →
        containsInChunk hashCount key (bloomInsertChunk hashCount key data) = true) := by
  refine ⟨fun chunks hc key => rfl, containsInChunk_iff, ?_⟩
  intro hc key data hlen hs
  rw [containsInChunk_iff]
  have hlen2 : (bloomInsertChunk hc key data).length = data.length := by
    unfold bloomInsertChunk
    exact insertFold_length key data _ _
  rw [hlen2]
  exact ⟨hlen, fun i hi => insertFold_probes_set key data hlen hs hc.toNat i hi⟩

/-- C9 witness: a key inserted into a fresh 2-byte chunk with 2 hash probes
is reported as possibly present. -/
theorem bloom_mayContain_semantics_witness :
    containsInChunk 2 [97] (bloomInsertChunk 2 [97] [0, 0]) = true :=
  bloom_mayContain_semantics.2.2 2 [97] [0, 0] (by decide) (by decide)

theorem findChunkAux_all_lt (keys : List Bytes) (key : Bytes)
    (hall : ∀ i : Nat, i < keys.length → compareBytes key (keys.getD i []) < 0) :
    ∀ (n : Nat) (lo hi res : Int), (hi + 1 - lo).toNat ≤ n → 0 ≤ lo →
      hi < (keys.length : Int) →
      findChunkAux keys key lo hi res = res := by
  intro n
  induction n with
  | zero =>
    intro lo hi res hfuel hlo hhi
    unfold findChunkAux
    rw [dif_neg (by omega)]
  | succ n ih =>
    intro lo hi res hfuel hlo hhi
    unfold findChunkAux
    by_cases hle : lo ≤ hi
    · rw [dif_pos hle]
      have hcm : compareBytes key
          (keys.getD (lo + ((hi - lo).toNat / 2 : Nat) : Int).toNat []) < 0 := by
        apply hall
        omega
      rw [if_neg (by omega)]
      exact ih lo (lo + ((hi - lo).toNat / 2 : Nat) - 1) res (by omega) hlo (by omega)
    · rw [dif_neg hle]

/-- C10: when the bloom filter has at least one chunk and the queried key is
byte-wise strictly below the first chunk-index entry's key (the chunk index
being sorted), `MayContain` returns false without consulting any chunk's
bits — the result is independent of the `chunks` contents. -/
theorem bloom_firstKey_short_circuit (entryKeys : List Bytes) (chunks : Nat → Bytes)
    (hashCount : Int) (key : Bytes)
    (hne : entryKeys ≠ [])
    (hsorted : List.Pairwise (fun a b => compareBytes a b ≤ 0) entryKeys)
    (hlt : compareBytes key (entryKeys.getD 0 []) < 0) :
    mayContain entryKeys chunks hashCount key = false := by
  have hall : ∀ i : Nat, i < entryKeys.length → compareBytes key (entryKeys.getD i []) < 0 := by
    intro i hi
    cases entryKeys with
    | nil => simp at hi
    | cons e0 rest =>
      cases i with
      | zero => exact hlt
      | succ i =>
        obtain ⟨hhead, -⟩ := List.pairwise_cons.mp hsorted
        have hilen : i < rest.length := by
          simpa using hi
        have hmem : rest.getD i [] ∈ rest := by
          rw [List.getD_eq_getElem _ _ hilen]
          exact List.getElem_mem hilen
        have hle0 : compareBytes e0 (rest.getD i []) ≤ 0 := hhead _ hmem
        have h0 : compareBytes key e0 < 0 := hlt
        simpa using compareBytes_lt_of_lt_of_le h0 hle0
  have hfind : findChunk entryKeys key = -1 := by
    unfold findChunk
    exact findChunkAux_all_lt entryKeys key hall entryKeys.length 0 _ _ (by omega) (by omega)
      (by omega)
  unfold mayContain
  rw [if_neg (fun hx => hne (List.length_eq_zero.mp hx)), hfind,
    if_pos (by norm_num)]

/-- C10 witness: a key below the first index entry is reported definitely
absent, even though every bit of every chunk is set. -/
theorem bloom_firstKey_short_circuit_witness :
    mayContain [[5], [9]] (fun _ => [255]) 1 [1] = false :=
  bloom_firstKey_short_circuit [[5], [9]] (fun _ => [255]) 1 [1] (by decide)
    (by decide) (by decide)

/-!
### Compression codec dispatch (src/hfile/compress.go)

`DecompressorForCodec` switches on the HBase compression ordinal;
`zstdDecompressor.Decompress` sniffs the ZSTD frame magic to choose between a
raw frame decode and the Hadoop BlockCompressorStream framing implemented by
`hadoopBlockDecompress`. The underlying zstd library decoder
(`zstd.Decoder.DecodeAll (input, dst)`, which appends the decoded bytes of
`input` to `dst`) is kept abstract as a function parameter `decodeAll`.
-/

/-- Compression codec ordinals from compress.go (HBase Algorithm enum). -/
def CompressionGZ : Nat := 1

/-- HBase NONE compression ordinal. -/
def CompressionNone : Nat := 2

/-- HBase SNAPPY compression ordinal. -/
def CompressionSnappy : Nat := 3

/-- HBase ZSTD compression ordinal. -/
def CompressionZSTD : Nat := 6

/-- Which decompressor value `DecompressorForCodec` returns: `gzipDecompressor`,
`noneDecompressor` (store), `snappyDecompressor` or `zstdDecompressor`. -/
inductive DecompKind where
  | gzip
  | store
  | snappy
  | zstd
  deriving DecidableEq, Repr

/-- Typed errors of the decompression layer (Go returns `error` values built
with `fmt.Errorf`; we record the distinct construction sites). -/
inductive DecompErr where
  | unsupportedCodec (codec : Nat)
  | truncatedBlockSize (pos : Nat)
  | truncatedChunkSize (pos : Nat)
  | truncatedChunkData (pos : Nat)
  | rawDecoderErr
  deriving DecidableEq, Repr

/-- `DecompressorForCodec` from compress.go: switch on the codec ordinal. -/
def DecompressorForCodec (codec : Nat) : Except DecompErr DecompKind :=
  if codec = CompressionGZ then .ok .gzip
  else if codec = CompressionNone then .ok .store
  else if codec = CompressionSnappy then .ok .snappy
  else if codec = CompressionZSTD then .ok .zstd
  else .error (.unsupportedCodec codec)

/-- `isZstdFrame` from compress.go: the buffer is at least 4 bytes long and
starts with the ZSTD frame magic 0x28 0xB5 0x2F 0xFD. -/
def isZstdFrame (src : Bytes) : Bool :=
  decide (4 ≤ src.length) && decide (src.take 4 = [0x28, 0xB5, 0x2F, 0xFD])

/-- Loop state of `hadoopBlockDecompress` from compress.go. Arguments: current
read position `pos`, accumulated output `out`, and `some (acc, target)` while
inside a framing block (`acc` is Go's `decompressedInBlock`, an `int` that an
arbitrary `rawDecompress` callback could in principle drive negative, hence
`Int`; `target` is `decompressedBlockSize`) or `none` between blocks. -/
def hadoopLoop (raw : Bytes → Bytes → Except DecompErr Bytes) (src : Bytes) :
    Nat → Bytes → Option (Int × Nat) → Except DecompErr Bytes
  | pos, out, none =>
    if pos < src.length then
      if src.length < pos + 4 then .error (.truncatedBlockSize pos)
      else hadoopLoop raw src (pos + 4) out (some (0, be32At src pos))
    else .ok out
  | pos, out, some (acc, target) =>
    if acc < (target : Int) then
      if src.length < pos + 4 then .error (.truncatedChunkSize pos)
      else
        let cs := be32At src pos
        if src.length < pos + 4 + cs then .error (.truncatedChunkData (pos + 4))
        else
          match raw out ((src.drop (pos + 4)).take cs) with
          | .error e => .error e
          | .ok out2 =>
              hadoopLoop raw src (pos + 4 + cs) out2
                (some (acc + ((out2.length : Int) - (out.length : Int)), target))
    else hadoopLoop raw src pos out none
termination_by pos _ ib =>
  (src.length + 1 - pos, match ib with | none => 0 | some _ => 1)
decreasing_by
  all_goals simp_wf
  all_goals first
  | exact Prod.Lex.left _ _ (by omega)
  | exact Prod.Lex.right _ (by omega)

/-- `hadoopBlockDecompress` from compress.go: parse the Hadoop
BlockCompressorStream framing, decompressing each length-prefixed chunk with
`rawDecompress` (which appends to its first argument). -/
def hadoopBlockDecompress (out : Bytes) (src : Bytes)
    (rawDecompress : Bytes → Bytes → Except DecompErr Bytes) :
    Except DecompErr Bytes :=
  hadoopLoop rawDecompress src 0 out none

/-- `zstdDecompressor.Decompress` from compress.go: raw-frame decode when the
buffer starts with the ZSTD magic, Hadoop block framing otherwise. The `out`
buffer starts empty (`uncompressedSize` only pre-sizes its capacity in Go). -/
def zstdDecompress (decodeAll : Bytes → Bytes → Except DecompErr Bytes)
    (src : Bytes) (_uncompressedSize : Nat) : Except DecompErr Bytes :=
  let out : Bytes := []
  if isZstdFrame src then decodeAll src out
  else hadoopBlockDecompress out src (fun dst chunk => decodeAll chunk dst)

/-- `noneDecompressor.Decompress` from compress.go: returns `src` unchanged,
ignoring `uncompressedSize`. -/
def noneDecompress (src : Bytes) (_uncompressedSize : Int) :
    Except DecompErr Bytes :=
  .ok src

/-- C8: DecompressorForCodec maps 1 ↦ gzip, 2 ↦ store (no-op),
3 ↦ snappy (Hadoop block framing), 6 ↦ zstd, and every other ordinal to an
unsupported-codec error; for codec 6, a buffer starting with the 4-byte ZSTD
frame magic 0x28 0xB5 0x2F 0xFD is decoded directly as a raw frame, and any
other buffer goes through the 4-byte-size-plus-chunks framing. -/
theorem decompressorForCodec_dispatch :
    (DecompressorForCodec 1 = .ok .gzip ∧ DecompressorForCodec 2 = .ok .store ∧
     DecompressorForCodec 3 = .ok .snappy ∧ DecompressorForCodec 6 = .ok .zstd) ∧
    (∀ c : Nat, c ≠ 1 → c ≠ 2 → c ≠ 3 → c ≠ 6 →
      DecompressorForCodec c = .error (.unsupportedCodec c)) ∧
    (∀ src : Bytes, isZstdFrame src = true ↔
      4 ≤ src.length ∧ src.take 4 = [0x28, 0xB5, 0x2F, 0xFD]) ∧
    (∀ decodeAll src sz, isZstdFrame src = true →
      zstdDecompress decodeAll src sz = decodeAll src []) ∧
    (∀ decodeAll src sz, isZstdFrame src = false →
      zstdDecompress decodeAll src sz
        = hadoopBlockDecompress [] src (fun dst chunk => decodeAll chunk dst)) := by
  refine ⟨⟨rfl, rfl, rfl, rfl⟩, ?_, ?_, ?_, ?_⟩
  · intro c h1 h2 h3 h6
    unfold DecompressorForCodec CompressionGZ CompressionNone CompressionSnappy
      CompressionZSTD
    rw [if_neg h1, if_neg h2, if_neg h3, if_neg h6]
  · intro src
    unfold isZstdFrame
    simp
  · intro decodeAll src sz h
    unfold zstdDecompress
    rw [if_pos h]
  · intro decodeAll src sz h
    unfold zstdDecompress
    rw [if_neg (by simp [h])]

/-- C8 witness: codec 7 is rejected; a raw-frame buffer is passed straight to
the frame decoder; a framed buffer (block size 1, one chunk `[9, 9]`) goes
through `hadoopBlockDecompress`, here with a decoder that copies chunks. -/
theorem decompressorForCodec_dispatch_witness :
    DecompressorForCodec 7 = .error (.unsupportedCodec 7) ∧
    zstdDecompress (fun input dst => .ok (dst ++ input))
      [0x28, 0xB5, 0x2F, 0xFD] 4 = .ok [0x28, 0xB5, 0x2F, 0xFD] ∧
    zstdDecompress (fun input dst => .ok (dst ++ input))
      [0, 0, 0, 1, 0, 0, 0, 2, 9, 9] 2 = .ok [9, 9] := by
  refine ⟨decompressorForCodec_dispatch.2.1 7 (by decide) (by decide) (by decide)
    (by decide), ?_, ?_⟩
  · rw [decompressorForCodec_dispatch.2.2.2.1 _ _ 4 (by decide)]
    rfl
  · rw [decompressorForCodec_dispatch.2.2.2.2 _ _ 2 (by decide)]
    unfold hadoopBlockDecompress
    rw [hadoopLoop, if_pos (by norm_num), if_neg (by norm_num)]
    rw [hadoopLoop]
    norm_num [be32At, be32]
    rw [hadoopLoop, if_neg (by norm_num)]
    rw [hadoopLoop, if_neg (by norm_num)]

/-!
### Checksums (src/unnamed/part_007, a checksum.go of package hfile)

`verifyChecksums` splits `header ++ data` into `bytesPerChecksum`-sized chunks
and compares a CRC32 (IEEE) or CRC32C (Castagnoli) per chunk against 4-byte
big-endian values in `checksumBytes`. Go calls `hash/crc32`; we embed it as the
standard reflected bitwise CRC-32 (which the table-driven library computes),
characterised by the reversed polynomial. Check values: the IEEE CRC of the
ASCII string "123456789" is 0xCBF43926 and the Castagnoli CRC is 0xE3069283,
and both hold for these definitions (see `crc32_check_values`).
-/

/-- Checksum type ordinals from checksum.go. -/
def checksumNull : Nat := 0

/-- CRC32 (IEEE) checksum type ordinal. -/
def checksumCRC32 : Nat := 1

/-- CRC32C (Castagnoli) checksum type ordinal. -/
def checksumCRC32C : Nat := 2

/-- Reversed IEEE CRC-32 polynomial (the one `hash/crc32.IEEETable` encodes). -/
def crc32IEEEPoly : Nat := 0xEDB88320

/-- Reversed Castagnoli polynomial (`hash/crc32.MakeTable (crc32.Castagnoli)`). -/
def crc32CastagnoliPoly : Nat := 0x82F63B78

/-- One bit step of the reflected CRC-32: shift right, xor the polynomial if
the dropped bit was set. -/
def crc32Step (poly : Nat) (c : Nat) : Nat :=
  if c % 2 = 1 then (c / 2) ^^^ poly else c / 2

/-- Fold one byte into the reflected CRC-32 state: xor it in, then 8 bit
steps. -/
def crc32Byte (poly : Nat) (crc b : Nat) : Nat :=
  (crc32Step poly)^[8] (crc ^^^ b)

/-- Reflected CRC-32 of a byte string with initial value and final xor
0xFFFFFFFF: the value `hash/crc32.Checksum` returns for the table built from
`poly`. -/
def crc32 (poly : Nat) (data : Bytes) : Nat :=
  (data.foldl (crc32Byte poly) 0xFFFFFFFF) ^^^ 0xFFFFFFFF

set_option maxRecDepth 10000 in
/-- Standard CRC-32 check values on the ASCII string "123456789". -/
theorem crc32_check_values :
    crc32 crc32IEEEPoly [49, 50, 51, 52, 53, 54, 55, 56, 57] = 0xCBF43926 ∧
    crc32 crc32CastagnoliPoly [49, 50, 51, 52, 53, 54, 55, 56, 57]
      = 0xE3069283 := by
  constructor <;> decide

/-- Typed errors of verifyChecksums (Go `fmt.Errorf` construction sites). -/
inductive ChecksumErr where
  | invalidBytesPerChecksum
  | checksumDataTooShort
  | unsupportedChecksumType (t : Nat)
  | mismatch (i : Nat)
  deriving DecidableEq, Repr

/-- Per-chunk loop of `verifyChecksums` from checksum.go: chunk `i` is
`combined[i*bpc : min (i*bpc+bpc) len]`; its CRC (per the checksum type's
switch, defaulting to an unsupported-type error) must equal the big-endian
word at `checksumBytes[i*4 : i*4+4]`. `remaining` counts chunks left. -/
def verifyLoop (checksumType bpc : Nat) (combined checksumBytes : Bytes) :
    Nat → Nat → Except ChecksumErr Unit
  | 0, _ => .ok ()
  | remaining + 1, i =>
    if checksumType = checksumCRC32 ∨ checksumType = checksumCRC32C then
      let chunk := (combined.drop (i * bpc)).take
          (min (i * bpc + bpc) combined.length - i * bpc)
      let got := if checksumType = checksumCRC32 then crc32 crc32IEEEPoly chunk
                 else crc32 crc32CastagnoliPoly chunk
      if got = be32At checksumBytes (i * 4) then
        verifyLoop checksumType bpc combined checksumBytes remaining (i + 1)
      else .error (.mismatch i)
    else .error (.unsupportedChecksumType checksumType)

/-- `verifyChecksums` from checksum.go. `bytesPerChecksum` is a Go `int`
(negative values rejected); `combined` is `header ++ data`; the chunk count
rounds up. -/
def verifyChecksums (checksumType : Nat) (bytesPerChecksum : Int)
    (header data checksumBytes : Bytes) : Except ChecksumErr Unit :=
  if bytesPerChecksum ≤ 0 then .error .invalidBytesPerChecksum
  else
    let bpc := bytesPerChecksum.toNat
    let combined := header ++ data
    let numChunks := (combined.length + bpc - 1) / bpc
    if checksumBytes.length < numChunks * 4 then .error .checksumDataTooShort
    else verifyLoop checksumType bpc combined checksumBytes numChunks 0

/-- The clipped chunk extent `min (start+bpc) len - start` taken after
`drop start` is the same list as plainly taking `bpc` elements. -/
theorem chunkTake (l : Bytes) (start bpc : Nat) :
    (l.drop start).take (min (start + bpc) l.length - start)
      = (l.drop start).take bpc := by
  rcases le_or_lt (start + bpc) l.length with h | h
  · rw [min_eq_left h]
    congr 1
    omega
  · rw [min_eq_right (le_of_lt h)]
    rw [List.take_of_length_le, List.take_of_length_le]
    all_goals simp
    all_goals omega

/-- One-step (zeta-reduced) unfolding of the checksum loop. -/
theorem verifyLoop_succ (ct bpc : Nat) (combined ck : Bytes) (r i : Nat) :
    verifyLoop ct bpc combined ck (r + 1) i =
      if ct = checksumCRC32 ∨ ct = checksumCRC32C then
        if (if ct = checksumCRC32 then
              crc32 crc32IEEEPoly ((combined.drop (i * bpc)).take
                (min (i * bpc + bpc) combined.length - i * bpc))
            else
              crc32 crc32CastagnoliPoly ((combined.drop (i * bpc)).take
                (min (i * bpc + bpc) combined.length - i * bpc)))
            = be32At ck (i * 4) then
          verifyLoop ct bpc combined ck r (i + 1)
        else .error (.mismatch i)
      else .error (.unsupportedChecksumType ct) := rfl

/-- The checksum loop succeeds iff every remaining chunk's CRC matches its
stored big-endian word. -/
theorem verifyLoop_ok_iff (ct bpc : Nat) (combined ck : Bytes)
    (hct : ct = 1 ∨ ct = 2) (remaining : Nat) :
    ∀ i, (verifyLoop ct bpc combined ck remaining i = .ok () ↔
      ∀ j, i ≤ j → j < i + remaining →
        (if ct = 1 then crc32 crc32IEEEPoly else crc32 crc32CastagnoliPoly)
          ((combined.drop (j * bpc)).take bpc) = be32At ck (j * 4)) := by
  induction remaining with
  | zero =>
    intro i
    constructor
    · intro _ j h1 h2
      omega
    · intro _
      rfl
  | succ r ih =>
    intro i
    rw [verifyLoop_succ, chunkTake]
    rcases hct with rfl | rfl
    · rw [if_pos (Or.inl (show (1 : Nat) = checksumCRC32 from rfl))]
      rw [if_pos (show (1 : Nat) = checksumCRC32 from rfl)]
      by_cases hg :
          crc32 crc32IEEEPoly ((combined.drop (i * bpc)).take bpc)
            = be32At ck (i * 4)
      · rw [if_pos hg, ih (i + 1)]
        rw [if_pos (show (1 : Nat) = 1 from rfl)]
        constructor
        · intro hall j h1 h2
          rcases Nat.eq_or_lt_of_le h1 with rfl | hlt
          · exact hg
          · exact hall j (by omega) (by omega)
        · intro hall j h1 h2
          exact hall j (by omega) (by omega)
      · rw [if_neg hg]
        rw [if_pos (show (1 : Nat) = 1 from rfl)]
        constructor
        · intro h
          exact absurd h (by simp)
        · intro hall
          exact absurd (hall i (le_refl i) (by omega)) hg
    · rw [if_pos (Or.inr (show (2 : Nat) = checksumCRC32C from rfl))]
      rw [if_neg (show ¬((2 : Nat) = checksumCRC32) by decide)]
      by_cases hg :
          crc32 crc32CastagnoliPoly ((combined.drop (i * bpc)).take bpc)
            = be32At ck (i * 4)
      · rw [if_pos hg, ih (i + 1)]
        rw [if_neg (show ¬((2 : Nat) = 1) by decide)]
        constructor
        · intro hall j h1 h2
          rcases Nat.eq_or_lt_of_le h1 with rfl | hlt
          · exact hg
          · exact hall j (by omega) (by omega)
        · intro hall j h1 h2
          exact hall j (by omega) (by omega)
      · rw [if_neg hg]
        rw [if_neg (show ¬((2 : Nat) = 1) by decide)]
        constructor
        · intro h
          exact absurd h (by simp)
        · intro hall
          exact absurd (hall i (le_refl i) (by omega)) hg

/-!
### Block reading (src/hfile/block.go)

`ReadBlock` reads the 33-byte header at `offset`, reads
`OnDiskSizeWithoutHeader` body bytes after it, splits the body into a data
portion of `OnDiskDataSizeWithHeader - 33` bytes and trailing checksum bytes,
verifies checksums unless the checksum type is null (0), and decompresses the
data portion. The file is a byte list; `io.ReaderAt` becomes `readAt`, which
fails (as Go's `bytes.Reader.ReadAt` does, with a negative-position or EOF
error that `ReadBlock` wraps) unless the requested range lies inside the file.
The decompressor is a function parameter; `noneDecompress` is the store codec.
-/

/-- Block types from block.go, in declaration order. -/
inductive BlockType where
  | data
  | encodedData
  | leafIndex
  | bloomChunk
  | meta
  | intermediateIndex
  | rootIndex
  | fileInfo
  | generalBloomMeta
  | deleteBloomMeta
  | trailer
  | indexV1
  deriving DecidableEq, Repr

/-- Magic bytes "DATABLK*". -/
def magicData : Bytes := [68, 65, 84, 65, 66, 76, 75, 42]

/-- Magic bytes "DATABLKE". -/
def magicEncodedData : Bytes := [68, 65, 84, 65, 66, 76, 75, 69]

/-- Magic bytes "IDXLEAF2". -/
def magicLeafIndex : Bytes := [73, 68, 88, 76, 69, 65, 70, 50]

/-- Magic bytes "BLMFBLK2". -/
def magicBloomChunk : Bytes := [66, 76, 77, 70, 66, 76, 75, 50]

/-- Magic bytes "METABLKc". -/
def magicMeta : Bytes := [77, 69, 84, 65, 66, 76, 75, 99]

/-- Magic bytes "IDXINTE2". -/
def magicIntermediateIndex : Bytes := [73, 68, 88, 73, 78, 84, 69, 50]

/-- Magic bytes "IDXROOT2". -/
def magicRootIndex : Bytes := [73, 68, 88, 82, 79, 79, 84, 50]

/-- Magic bytes "FILEINF2". -/
def magicFileInfo : Bytes := [70, 73, 76, 69, 73, 78, 70, 50]

/-- Magic bytes "BLMFMET2". -/
def magicGeneralBloomMeta : Bytes := [66, 76, 77, 70, 77, 69, 84, 50]

/-- Magic bytes "DFBLMET2". -/
def magicDeleteBloomMeta : Bytes := [68, 70, 66, 76, 77, 69, 84, 50]

/-- Magic bytes for the trailer block. -/
def magicTrailer : Bytes := [84, 82, 65, 66, 76, 75, 34, 36]

/-- Magic bytes "IDXBLK)+". -/
def magicIndexV1 : Bytes := [73, 68, 88, 66, 76, 75, 41, 43]

/-- Typed errors of the block layer (block.go `fmt.Errorf` construction
sites; read errors wrap the underlying reader's error). -/
inductive BlockErr where
  | readOutOfBounds
  | unknownMagic
  | invalidOnDiskSize
  | invalidDataSize
  | checksum (e : ChecksumErr)
  | invalidUncompressedSize
  | decompress (e : DecompErr)
  deriving DecidableEq, Repr

/-- `parseBlockType` from block.go: the `magicToBlockType` map lookup,
written as a chain of comparisons over the twelve entries. -/
def parseBlockType (magic : Bytes) : Except BlockErr BlockType :=
  if magic = magicData then .ok .data
  else if magic = magicEncodedData then .ok .encodedData
  else if magic = magicLeafIndex then .ok .leafIndex
  else if magic = magicBloomChunk then .ok .bloomChunk
  else if magic = magicMeta then .ok .meta
  else if magic = magicIntermediateIndex then .ok .intermediateIndex
  else if magic = magicRootIndex then .ok .rootIndex
  else if magic = magicFileInfo then .ok .fileInfo
  else if magic = magicGeneralBloomMeta then .ok .generalBloomMeta
  else if magic = magicDeleteBloomMeta then .ok .deleteBloomMeta
  else if magic = magicTrailer then .ok .trailer
  else if magic = magicIndexV1 then .ok .indexV1
  else .error .unknownMagic

/-- `BlockHeader` from block.go: int32 fields as wrapped `Int`s, the checksum
type byte as `Nat`. -/
structure BlockHeader where
  type : BlockType
  onDiskSizeWithoutHeader : Int
  uncompressedSize : Int
  prevBlockOffset : Int
  checksumType : Nat
  bytesPerChecksum : Int
  onDiskDataSizeWithHeader : Int
  deriving DecidableEq, Repr

/-- HFile v3 block header size: 8 + 4 + 4 + 8 + 1 + 4 + 4 = 33. -/
def blockHeaderSize : Nat := 33

/-- `parseBlockHeader` from block.go, over a 33-byte buffer. -/
def parseBlockHeader (buf : Bytes) : Except BlockErr BlockHeader :=
  match parseBlockType (buf.take 8) with
  | .error e => .error e
  | .ok bt =>
    .ok { type := bt
          onDiskSizeWithoutHeader := toInt32 (be32At buf 8)
          uncompressedSize := toInt32 (be32At buf 12)
          prevBlockOffset := toInt64 (be64At buf 16)
          checksumType := buf.getD 24 0
          bytesPerChecksum := toInt32 (be32At buf 25)
          onDiskDataSizeWithHeader := toInt32 (be32At buf 29) }

/-- `Block` from block.go: parsed header, decompressed payload, file offset. -/
structure Block where
  header : BlockHeader
  data : Bytes
  offset : Int
  deriving DecidableEq, Repr

/-- `io.ReaderAt.ReadAt` over an in-memory byte list (`bytes.Reader`): reading
`n` bytes at `off` succeeds iff the whole range is inside the file (Go errors
on a negative position and returns EOF on a short read). -/
def readAt (file : Bytes) (off : Int) (n : Nat) : Except BlockErr Bytes :=
  if 0 ≤ off ∧ off.toNat + n ≤ file.length then
    .ok ((file.drop off.toNat).take n)
  else .error .readOutOfBounds

/-- `ReadBlock` from block.go. -/
def ReadBlock (file : Bytes) (offset : Int)
    (decomp : Bytes → Int → Except DecompErr Bytes) : Except BlockErr Block :=
  match readAt file offset blockHeaderSize with
  | .error e => .error e
  | .ok headerBuf =>
    match parseBlockHeader headerBuf with
    | .error e => .error e
    | .ok hdr =>
      if hdr.onDiskSizeWithoutHeader < 0 then .error .invalidOnDiskSize
      else
        match readAt file (offset + 33) hdr.onDiskSizeWithoutHeader.toNat with
        | .error e => .error e
        | .ok onDisk =>
          if hdr.onDiskDataSizeWithHeader - 33 < 0 ∨
              (onDisk.length : Int) < hdr.onDiskDataSizeWithHeader - 33 then
            .error .invalidDataSize
          else
            match (if hdr.checksumType ≠ checksumNull then
                     verifyChecksums hdr.checksumType hdr.bytesPerChecksum
                       headerBuf
                       (onDisk.take (hdr.onDiskDataSizeWithHeader - 33).toNat)
                       (onDisk.drop (hdr.onDiskDataSizeWithHeader - 33).toNat)
                   else .ok ()) with
            | .error e => .error (.checksum e)
            | .ok _ =>
              if hdr.uncompressedSize < 0 then .error .invalidUncompressedSize
              else
                match decomp
                    (onDisk.take (hdr.onDiskDataSizeWithHeader - 33).toNat)
                    hdr.uncompressedSize with
                | .error e => .error (.decompress e)
                | .ok payload =>
                  .ok { header := hdr, data := payload, offset := offset }

/-- Unfolding of `verifyChecksums` past the positive-`bytesPerChecksum`
guard. -/
theorem verifyChecksums_pos (ct : Nat) (bpcI : Int) (header data ck : Bytes)
    (hb : ¬ bpcI ≤ 0) :
    verifyChecksums ct bpcI header data ck =
      if ck.length <
          ((header ++ data).length + bpcI.toNat - 1) / bpcI.toNat * 4 then
        .error .checksumDataTooShort
      else
        verifyLoop ct bpcI.toNat (header ++ data) ck
          (((header ++ data).length + bpcI.toNat - 1) / bpcI.toNat) 0 := by
  unfold verifyChecksums
  rw [if_neg hb]

/-- C6: for checksum types 1 (CRC32) and 2 (CRC32C), verifyChecksums succeeds
iff bytesPerChecksum is positive, the appended checksum area holds one 4-byte
word per chunk, and the CRC of every `bytesPerChecksum`-sized chunk of
`header ++ data` (last chunk possibly shorter) equals its stored big-endian
word — in particular any mismatch is an error; and when the header's checksum
type is null (0), ReadBlock skips verification entirely: the checksum bytes
after the data portion can change arbitrarily without affecting the result. -/
theorem verifyChecksums_spec :
    (∀ (ct : Nat) (bpcI : Int) (header data ck : Bytes), ct = 1 ∨ ct = 2 →
      (verifyChecksums ct bpcI header data ck = .ok () ↔
        (0 < bpcI ∧
          ((header ++ data).length + bpcI.toNat - 1) / bpcI.toNat * 4
              ≤ ck.length ∧
          ∀ i < ((header ++ data).length + bpcI.toNat - 1) / bpcI.toNat,
            (if ct = 1 then crc32 crc32IEEEPoly else crc32 crc32CastagnoliPoly)
              (((header ++ data).drop (i * bpcI.toNat)).take bpcI.toNat)
              = be32At ck (i * 4)))) ∧
    (∀ (header data ck ck' : Bytes)
        (decomp : Bytes → Int → Except DecompErr Bytes) (hdr : BlockHeader),
      parseBlockHeader header = .ok hdr →
      hdr.checksumType = 0 →
      hdr.onDiskSizeWithoutHeader = ((data.length + ck.length : Nat) : Int) →
      hdr.onDiskDataSizeWithHeader = ((33 + data.length : Nat) : Int) →
      ck.length = ck'.length →
      header.length = 33 →
      ReadBlock (header ++ (data ++ ck)) 0 decomp
        = ReadBlock (header ++ (data ++ ck')) 0 decomp) := by
  constructor
  · intro ct bpcI header data ck hct
    by_cases hb : bpcI ≤ 0
    · unfold verifyChecksums
      rw [if_pos hb]
      constructor
      · intro h
        exact absurd h (by simp)
      · rintro ⟨h0, -, -⟩
        omega
    · rw [verifyChecksums_pos ct bpcI header data ck hb]
      by_cases hl : ck.length <
          ((header ++ data).length + bpcI.toNat - 1) / bpcI.toNat * 4
      · rw [if_pos hl]
        constructor
        · intro h
          exact absurd h (by simp)
        · rintro ⟨-, h2, -⟩
          omega
      · rw [if_neg hl]
        rw [verifyLoop_ok_iff ct bpcI.toNat (header ++ data) ck hct _ 0]
        constructor
        · intro hall
          exact ⟨by omega, by omega, fun i hi => hall i (by omega) (by omega)⟩
        · rintro ⟨-, -, hall⟩ j h1 h2
          exact hall j (by omega)
  · intro header data ck ck' decomp hdr hparse hct hsz hds hckl hhl
    have hra1 : readAt (header ++ (data ++ ck)) 0 blockHeaderSize
        = .ok header := by
      unfold readAt blockHeaderSize
      rw [if_pos ⟨le_refl 0, by simp [hhl]⟩]
      rw [show ((0 : Int)).toNat = 0 from rfl, List.drop_zero, ← hhl,
        List.take_left]
    have hra1' : readAt (header ++ (data ++ ck')) 0 blockHeaderSize
        = .ok header := by
      unfold readAt blockHeaderSize
      rw [if_pos ⟨le_refl 0, by simp [hhl]⟩]
      rw [show ((0 : Int)).toNat = 0 from rfl, List.drop_zero, ← hhl,
        List.take_left]
    have honNat : hdr.onDiskSizeWithoutHeader.toNat
        = data.length + ck.length := by
      rw [hsz]
      omega
    have h33 : ((0 : Int) + 33).toNat = 33 := by omega
    have hra2 : readAt (header ++ (data ++ ck)) (0 + 33)
        hdr.onDiskSizeWithoutHeader.toNat = .ok (data ++ ck) := by
      unfold readAt
      rw [if_pos ⟨by omega, by rw [h33, honNat]; simp [hhl]⟩]
      rw [h33, honNat, ← hhl, List.drop_left,
        List.take_of_length_le (by simp)]
    have hra2' : readAt (header ++ (data ++ ck')) (0 + 33)
        hdr.onDiskSizeWithoutHeader.toNat = .ok (data ++ ck') := by
      unfold readAt
      rw [if_pos ⟨by omega, by rw [h33, honNat]; simp [hhl]; omega⟩]
      rw [h33, honNat, ← hhl, List.drop_left,
        List.take_of_length_le (by simp; omega)]
    have hds33 : hdr.onDiskDataSizeWithHeader - 33 = (data.length : Int) := by
      rw [hds]
      push_cast
      ring
    unfold ReadBlock
    rw [hra1, hra1']
    dsimp only []
    rw [hparse]
    dsimp only []
    have hnn : ¬ hdr.onDiskSizeWithoutHeader < 0 := by
      rw [hsz]
      omega
    rw [if_neg hnn, if_neg hnn]
    rw [hra2, hra2']
    dsimp only []
    have hc1 : ¬(hdr.onDiskDataSizeWithHeader - 33 < 0 ∨
        ((data ++ ck).length : Int) < hdr.onDiskDataSizeWithHeader - 33) := by
      rw [hds33]
      rintro (hx | hx)
      · omega
      · simp at hx
        omega
    have hc1' : ¬(hdr.onDiskDataSizeWithHeader - 33 < 0 ∨
        ((data ++ ck').length : Int) < hdr.onDiskDataSizeWithHeader - 33) := by
      rw [hds33]
      rintro (hx | hx)
      · omega
      · simp at hx
        omega
    rw [if_neg hc1, if_neg hc1']
    have hskip : ¬ hdr.checksumType ≠ checksumNull := by
      simp [hct, checksumNull]
    rw [if_neg hskip, if_neg hskip]
    dsimp only []
    by_cases hu : hdr.uncompressedSize < 0
    · rw [if_pos hu, if_pos hu]
    · rw [if_neg hu, if_neg hu]
      have htoNat : (hdr.onDiskDataSizeWithHeader - 33).toNat
          = data.length := by
        rw [hds33]
        omega
      have ht1 : (data ++ ck).take (hdr.onDiskDataSizeWithHeader - 33).toNat
          = data := by
        rw [htoNat]
        exact List.take_left data ck
      have ht2 : (data ++ ck').take (hdr.onDiskDataSizeWithHeader - 33).toNat
          = data := by
        rw [htoNat]
        exact List.take_left data ck'
      rw [ht1, ht2]

/-- A 33-byte DATA block header with OnDiskSizeWithoutHeader = 7,
UncompressedSize = 7, PrevBlockOffset = 0, ChecksumType = 0 (null),
BytesPerChecksum = 16384, OnDiskDataSizeWithHeader = 36. -/
def exHeaderNull : Bytes :=
  magicData ++ [0, 0, 0, 7] ++ [0, 0, 0, 7] ++ [0, 0, 0, 0, 0, 0, 0, 0]
    ++ [0] ++ [0, 0, 64, 0] ++ [0, 0, 0, 36]

set_option maxRecDepth 20000 in
/-- C6 witness: a one-chunk CRC32 verification succeeds on matching bytes
(the CRC of the 36-byte `exHeaderNull ++ [1, 2, 3]` is 2766738308, big-endian
`[164, 233, 19, 132]`), and with a null checksum type two files differing
only in their checksum bytes produce identical ReadBlock results. -/
theorem verifyChecksums_spec_witness :
    verifyChecksums 1 64 exHeaderNull [1, 2, 3] [164, 233, 19, 132]
      = .ok () ∧
    ReadBlock (exHeaderNull ++ ([1, 2, 3] ++ [9, 9, 9, 9])) 0 noneDecompress
      = ReadBlock (exHeaderNull ++ ([1, 2, 3] ++ [0, 0, 0, 0])) 0
          noneDecompress :=
  ⟨(verifyChecksums_spec.1 1 64 exHeaderNull [1, 2, 3] [164, 233, 19, 132]
      (Or.inl rfl)).mpr (by decide),
   verifyChecksums_spec.2 exHeaderNull [1, 2, 3] [9, 9, 9, 9] [0, 0, 0, 0]
      noneDecompress
      { type := .data, onDiskSizeWithoutHeader := 7, uncompressedSize := 7,
        prevBlockOffset := 0, checksumType := 0, bytesPerChecksum := 16384,
        onDiskDataSizeWithHeader := 36 }
      rfl rfl (by decide) (by decide) rfl rfl⟩

/-- A 33-byte DATA block header with OnDiskSizeWithoutHeader = 5,
UncompressedSize = 7, PrevBlockOffset = 0, ChecksumType = 0 (null),
BytesPerChecksum = 16384, OnDiskDataSizeWithHeader = 38. -/
def exHeaderMismatch : Bytes :=
  magicData ++ [0, 0, 0, 5] ++ [0, 0, 0, 7] ++ [0, 0, 0, 0, 0, 0, 0, 0]
    ++ [0] ++ [0, 0, 64, 0] ++ [0, 0, 0, 38]

/-- A 38-byte file: the header above followed by 5 data bytes. -/
def exBlockFile : Bytes := exHeaderMismatch ++ [1, 2, 3, 4, 5]

/-- The block ReadBlock returns for `exBlockFile` with the store codec. -/
def exBlock : Block :=
  { header := { type := .data, onDiskSizeWithoutHeader := 5,
                uncompressedSize := 7, prevBlockOffset := 0,
                checksumType := 0, bytesPerChecksum := 16384,
                onDiskDataSizeWithHeader := 38 },
    data := [1, 2, 3, 4, 5], offset := 0 }

set_option maxRecDepth 20000 in
/-- C7 counterexample: ReadBlock succeeds on a store-codec block whose
5-byte payload does not match the header's UncompressedSize of 7 — no code
path compares the decompressed length against `uncompressedSize`, and the
store codec returns the data portion unchanged. -/
theorem readBlock_uncompressedSize_claim_false :
    ReadBlock exBlockFile 0 noneDecompress = .ok exBlock ∧
    (exBlock.data.length : Int) ≠ exBlock.header.uncompressedSize := by
  constructor
  · rfl
  · decide

/-- C7 amended: for every block the store codec returns, the payload is
exactly the data portion of the on-disk body — the first
`OnDiskDataSizeWithHeader - 33` bytes read at `offset + 33` — whatever the
header's UncompressedSize says. -/
theorem ReadBlock_store_payload (file : Bytes) (off : Int) (blk : Block)
    (h : ReadBlock file off noneDecompress = .ok blk) :
    (blk.data.length : Int) = blk.header.onDiskDataSizeWithHeader - 33 ∧
    blk.data = ((file.drop (off.toNat + 33)).take
        blk.header.onDiskSizeWithoutHeader.toNat).take
        (blk.header.onDiskDataSizeWithHeader - 33).toNat := by
  unfold ReadBlock at h
  split at h
  · exact absurd h (by simp)
  rename_i headerBuf hra1
  split at h
  · exact absurd h (by simp)
  rename_i hdr hparse
  split at h
  · exact absurd h (by simp)
  rename_i hodsz
  split at h
  · exact absurd h (by simp)
  rename_i onDisk hra2
  split at h
  · exact absurd h (by simp)
  rename_i hdsz
  split at h
  · exact absurd h (by simp)
  rename_i u hchk
  split at h
  · exact absurd h (by simp)
  rename_i hunc
  split at h
  · exact absurd h (by simp)
  rename_i payload hdec
  injection h with h2
  subst h2
  unfold noneDecompress at hdec
  injection hdec with hpay
  unfold readAt at hra1
  split at hra1
  · rename_i hc1
    unfold readAt at hra2
    split at hra2
    · rename_i hc2
      injection hra1 with hhb
      injection hra2 with hod
      push_neg at hdsz
      obtain ⟨hds0, hdsle⟩ := hdsz
      have hoff : (off + 33).toNat = off.toNat + 33 := by omega
      subst hpay
      subst hod
      constructor
      · dsimp only []
        rw [List.length_take]
        have : (hdr.onDiskDataSizeWithHeader - 33).toNat
            ≤ ((file.drop (off + 33).toNat).take
                hdr.onDiskSizeWithoutHeader.toNat).length := by omega
        rw [min_eq_left this]
        omega
      · dsimp only []
        rw [hoff]
    · exact absurd hra2 (by simp)
  · exact absurd hra1 (by simp)

set_option maxRecDepth 20000 in
/-- C7 amended witness: on the concrete 38-byte file the payload is the
5-byte data portion selected by OnDiskDataSizeWithHeader - 33. -/
theorem ReadBlock_store_payload_witness :
    (exBlock.data.length : Int) = exBlock.header.onDiskDataSizeWithHeader - 33 ∧
    exBlock.data = ((exBlockFile.drop ((0 : Int).toNat + 33)).take
        exBlock.header.onDiskSizeWithoutHeader.toNat).take
        (exBlock.header.onDiskDataSizeWithHeader - 33).toNat :=
  ReadBlock_store_payload exBlockFile 0 exBlock rfl

/-!
### Cell parsing (src/hfile/cell.go and readVInt of encoding.go)

`parseCell` walks a data-block payload: 4-byte key length, 4-byte value
length, then within the key a 2-byte row length, the row, a 1-byte family
length, the family, the qualifier, an 8-byte timestamp and a type byte,
then the value, optional tags and an optional trailing memstoreTS VInt.
Go's runtime panics on an out-of-range index or slice; the embedding makes
every index (`goIdx`) and slice (`goSlice`) explicit, with `GoParse.oob`
standing for the runtime panic as distinct from the function's typed
errors.
-/

/-- Typed error values of `parseCell` and `readVInt` (one constructor per
`fmt.Errorf` site; `memstoreTS` wraps the inner VInt error as `%w` does). -/
inductive CellErr where
  | shortLengths (offset : Nat)
  | dataTooShort (offset : Nat)
  | keyTooShort (offset : Nat)
  | rowPastKey (offset : Nat)
  | familyPastKey (offset : Nat)
  | negativeQualifierLen (offset : Nat)
  | tagsPastData (offset : Nat)
  | memstoreTS (offset : Nat) (inner : CellErr)
  | vintPastEnd
  | vintTruncated
  deriving DecidableEq, Repr

/-- Outcome of a Go function that can return a typed error or hit a runtime
panic: `ok` a result, `err` a returned error value, `oob` an
index/slice-out-of-range panic. -/
inductive GoParse (α : Type) where
  | ok (val : α)
  | err (e : CellErr)
  | oob
  deriving DecidableEq, Repr

instance : Monad GoParse where
  pure := .ok
  bind := fun x f =>
    match x with
    | .ok v => f v
    | .err e => .err e
    | .oob => .oob

/-- Go index expression `l[i]`: panics unless `i < len(l)`. -/
def goIdx (l : Bytes) (i : Nat) : GoParse Nat :=
  if i < l.length then .ok (l.getD i 0) else .oob

/-- Go slice expression `l[a:b]` (with `a, b ≥ 0`): panics unless
`a ≤ b ≤ len(l)`. -/
def goSlice (l : Bytes) (a b : Nat) : GoParse Bytes :=
  if a ≤ b ∧ b ≤ l.length then .ok ((l.drop a).take (b - a)) else .oob

/-- `decodeVIntSize` from encoding.go: total size of a Hadoop
WritableUtils VInt given its first byte as an int8. -/
def decodeVIntSize (firstByte : Int) : Nat :=
  if firstByte ≥ -112 then 1
  else if firstByte ≥ -120 then (-112 - firstByte).toNat + 1
  else (-120 - firstByte).toNat + 1

/-- `isNegativeVInt` from encoding.go. -/
def isNegativeVInt (firstByte : Int) : Bool := firstByte < -120

/-- `readVInt` from encoding.go: both indexing sites are covered by the two
explicit bounds checks, so the body reads with `getD`. The payload loop
accumulates `val = val<<8 | b` big-endian; `^val` is `-val - 1`. -/
def readVInt (buf : Bytes) (offset : Nat) : GoParse (Int × Nat) :=
  if offset ≥ buf.length then .err .vintPastEnd
  else
    let firstByte := sx8 (buf.getD offset 0)
    let size := decodeVIntSize firstByte
    if offset + size > buf.length then .err .vintTruncated
    else if size = 1 then .ok (firstByte, 1)
    else
      let val : Int := (List.range (size - 1)).foldl
        (fun v i => v * 256 + (buf.getD (offset + 1 + i) 0)) 0
      .ok (if isNegativeVInt firstByte then -val - 1 else val, size)

/-- `parseCell` from cell.go, returning the cell and the number of bytes
consumed. Every Go index/slice is a `goIdx`/`goSlice`; in particular the
unguarded `familyLen := int(data[pos])` read. -/
def parseCell (data : Bytes) (offset : Nat) (includeTags : Bool) :
    GoParse (Cell × Nat) :=
  if offset + 8 > data.length then .err (.shortLengths offset)
  else
    goSlice data offset (offset + 4) >>= fun kl4 =>
    let keyLen := be32At kl4 0
    goSlice data (offset + 4) (offset + 8) >>= fun vl4 =>
    let valLen := be32At vl4 0
    let pos := offset + 8
    if pos + keyLen + valLen > data.length then .err (.dataTooShort offset)
    else
      let keyStart := pos
      if keyLen < 2 + 1 + 8 + 1 then .err (.keyTooShort offset)
      else
        goSlice data pos (pos + 2) >>= fun rl2 =>
        let rowLen := be16At rl2 0
        let pos2 := pos + 2
        if pos2 + rowLen > keyStart + keyLen then .err (.rowPastKey offset)
        else
          goSlice data pos2 (pos2 + rowLen) >>= fun row =>
          let pos3 := pos2 + rowLen
          goIdx data pos3 >>= fun familyLen =>
          let pos4 := pos3 + 1
          if pos4 + familyLen > keyStart + keyLen then
            .err (.familyPastKey offset)
          else
            goSlice data pos4 (pos4 + familyLen) >>= fun family =>
            let pos5 := pos4 + familyLen
            let qualLen : Int := (keyLen : Int)
              - (2 + (rowLen : Int) + 1 + (familyLen : Int) + 8 + 1)
            if qualLen < 0 then .err (.negativeQualifierLen offset)
            else
              goSlice data pos5 (pos5 + qualLen.toNat) >>= fun qualifier =>
              let pos6 := pos5 + qualLen.toNat
              goSlice data pos6 (pos6 + 8) >>= fun ts8 =>
              let timestamp := be64At ts8 0
              let pos7 := pos6 + 8
              goIdx data pos7 >>= fun cellType =>
              let pos8 := pos7 + 1
              goSlice data pos8 (pos8 + valLen) >>= fun value =>
              let pos9 := pos8 + valLen
              (if includeTags ∧ pos9 + 2 ≤ data.length then
                 goSlice data pos9 (pos9 + 2) >>= fun tl2 =>
                 let tagsLen := be16At tl2 0
                 let pos10 := pos9 + 2
                 if tagsLen > 0 then
                   if pos10 + tagsLen > data.length then
                     .err (.tagsPastData offset)
                   else
                     goSlice data pos10 (pos10 + tagsLen) >>= fun tags =>
                     .ok (tags, pos10 + tagsLen)
                 else .ok (([] : Bytes), pos10)
               else .ok (([] : Bytes), pos9)) >>= fun tp =>
              (if tp.2 < data.length then
                 match readVInt data tp.2 with
                 | .ok (_, n) => .ok (tp.1, tp.2 + n)
                 | .err e => .err (.memstoreTS offset e)
                 | .oob => .oob
               else .ok tp) >>= fun tp2 =>
              .ok ({ row := row, family := family, qualifier := qualifier,
                     timestamp := timestamp, type := cellType, value := value,
                     tags := tp2.1 }, tp2.2 - offset)

/-- A 20-byte buffer: keyLen = 12, valLen = 0, rowLen = 10 = keyLen - 2, so
the whole key is row bytes and the buffer ends exactly where the family
length byte should be. -/
def cellPanicInput : Bytes :=
  [0, 0, 0, 12, 0, 0, 0, 0, 0, 10, 1, 2, 3, 4, 5, 6, 7, 8, 9, 10]

/-- C1: parseCell neither succeeds nor returns a typed error on this input —
it hits the unguarded `familyLen := int(data[pos])` read one byte past the
end of the buffer, a runtime index-out-of-range panic, contradicting the
requirement that parsing any byte string either succeeds or returns a typed
error (the package's own `FuzzNoCrash` exercises exactly this property). -/
theorem parseCell_out_of_bounds :
    parseCell cellPanicInput 0 false = GoParse.oob := rfl

/-!
### Seek (spec §4.4)

The scanner's `Seek` implementation is not present under src/ (only its
tests are), so the model below follows the specification's words: binary
search the sparse data-block index for the last entry whose key ≤ the
target (the repo's own `findChunk` is exactly that binary search over first
keys, reused here), reposition at that block — or at the first block when
every entry exceeds the target — then linear-scan forward discarding cells
whose key is strictly less than the target. The file is represented as its
list of data blocks, each the list of its cell keys; the result is the
remaining key stream: `Seek` reports found iff it is nonempty, its head is
the found cell's key, and its tail is what `Next` then iterates.
-/

/-- Modelled from the spec (§4.4): index seek then forward scan. -/
def seekToKey (blocks : List (List Bytes)) (target : Bytes) : List Bytes :=
  let entries := blocks.map (fun b => b.headD [])
  let idx := findChunk entries target
  let start := if idx < 0 then 0 else idx.toNat
  ((blocks.drop start).flatten).dropWhile
    (fun k => decide (compareBytes k target < 0))

/-- Zeta-reduced unfolding of `seekToKey`. -/
theorem seekToKey_eq (blocks : List (List Bytes)) (target : Bytes) :
    seekToKey blocks target =
      ((blocks.drop
          (if findChunk (blocks.map (fun b => b.headD [])) target < 0 then 0
           else (findChunk (blocks.map (fun b => b.headD []))
              target).toNat)).flatten).dropWhile
        (fun k => decide (compareBytes k target < 0)) := rfl

/-- The binary search of `findChunk` preserves its result invariant: the
running result is `-1` or a valid index whose key is ≤ the probed key. -/
theorem findChunkAux_result (keys : List Bytes) (key : Bytes) :
    ∀ (n : Nat) (lo hi res : Int), (hi + 1 - lo).toNat ≤ n →
      0 ≤ lo → hi < (keys.length : Int) →
      (res = -1 ∨ (0 ≤ res ∧ res < (keys.length : Int) ∧
        0 ≤ compareBytes key (keys.getD res.toNat []))) →
      (findChunkAux keys key lo hi res = -1 ∨
        (0 ≤ findChunkAux keys key lo hi res ∧
         findChunkAux keys key lo hi res < (keys.length : Int) ∧
         0 ≤ compareBytes key
           (keys.getD (findChunkAux keys key lo hi res).toNat []))) := by
  intro n
  induction n with
  | zero =>
    intro lo hi res hfuel hlo hhi hres
    unfold findChunkAux
    rw [dif_neg (by omega)]
    exact hres
  | succ n ih =>
    intro lo hi res hfuel hlo hhi hres
    unfold findChunkAux
    by_cases hle : lo ≤ hi
    · rw [dif_pos hle]
      by_cases hcm : 0 ≤ compareBytes key
          (keys.getD (lo + ((hi - lo).toNat / 2 : Nat) : Int).toNat [])
      · rw [if_pos hcm]
        exact ih (lo + ((hi - lo).toNat / 2 : Nat) + 1) hi
          (lo + ((hi - lo).toNat / 2 : Nat)) (by omega) (by omega) hhi
          (Or.inr ⟨by omega, by omega, hcm⟩)
      · rw [if_neg hcm]
        exact ih lo (lo + ((hi - lo).toNat / 2 : Nat) - 1) res (by omega) hlo
          (by omega) hres
    · rw [dif_neg hle]
      exact hres

/-- Under the chained block invariant, every key of an earlier block is
strictly below the first key of any later block. -/
theorem blocks_before_lt (blocks : List (List Bytes))
    (hne : ∀ b ∈ blocks, b ≠ [])
    (hchain : ∀ i, i + 1 < blocks.length → ∀ k ∈ blocks.getD i [],
      compareBytes k ((blocks.getD (i + 1) []).headD []) < 0) :
    ∀ (d i j : Nat), j = i + d + 1 → j < blocks.length →
      ∀ k ∈ blocks.getD i [],
        compareBytes k ((blocks.getD j []).headD []) < 0 := by
  intro d
  induction d with
  | zero =>
    intro i j hj hjlen k hk
    subst hj
    exact hchain i (by omega) k hk
  | succ d ih =>
    intro i j hj hjlen k hk
    have h1 : compareBytes k ((blocks.getD (i + d + 1) []).headD []) < 0 :=
      ih i (i + d + 1) rfl (by omega) k hk
    have hbmem : blocks.getD (i + d + 1) [] ∈ blocks := by
      rw [List.getD_eq_getElem _ _ (by omega)]
      exact List.getElem_mem (by omega)
    have hbne : blocks.getD (i + d + 1) [] ≠ [] := hne _ hbmem
    have hmem : ((blocks.getD (i + d + 1) []).headD [])
        ∈ blocks.getD (i + d + 1) [] := by
      cases hx : blocks.getD (i + d + 1) [] with
      | nil => exact absurd hx hbne
      | cons a as => simp
    have h2 : compareBytes ((blocks.getD (i + d + 1) []).headD [])
        ((blocks.getD (i + d + 2) []).headD []) < 0 :=
      hchain (i + d + 1) (by omega) _ hmem
    have hj2 : j = i + d + 2 := by omega
    subst hj2
    exact compareBytes_lt_of_lt_of_le h1 (le_of_lt h2)

/-- Dropping while a predicate holds skips a prefix all of whose elements
satisfy it. -/
theorem dropWhile_append_all {α : Type} (p : α → Bool) (l1 l2 : List α)
    (h : ∀ x ∈ l1, p x = true) :
    (l1 ++ l2).dropWhile p = l2.dropWhile p := by
  induction l1 with
  | nil => rfl
  | cons a as ih =>
    rw [List.cons_append, List.dropWhile_cons, if_pos (h a (by simp))]
    exact ih (fun x hx => h x (by simp [hx]))

/-- C5 (spec-modelled): the index-guided seek lands on exactly the stream
suffix starting at the first cell (in file order) whose key is not below
the target: so it returns "found" iff some cell key ≥ target exists, the
found cell is the first such cell, and `Next` continues with the cells
after it. Hypotheses are the data-block invariants: blocks are nonempty and
every key of a block is strictly below the next block's first (index)
key. -/
theorem seekToKey_spec (blocks : List (List Bytes)) (target : Bytes)
    (hne : ∀ b ∈ blocks, b ≠ [])
    (hchain : ∀ i, i + 1 < blocks.length → ∀ k ∈ blocks.getD i [],
      compareBytes k ((blocks.getD (i + 1) []).headD []) < 0) :
    seekToKey blocks target
      = blocks.flatten.dropWhile (fun k => decide (compareBytes k target < 0))
    ∧ (seekToKey blocks target = [] ↔
        ∀ k ∈ blocks.flatten, compareBytes k target < 0) := by
  have heq : seekToKey blocks target
      = blocks.flatten.dropWhile
          (fun k => decide (compareBytes k target < 0)) := by
    rw [seekToKey_eq]
    by_cases hlt : findChunk (blocks.map (fun b => b.headD [])) target < 0
    · rw [if_pos hlt, List.drop_zero]
    · rw [if_neg hlt]
      have hresult := findChunkAux_result (blocks.map (fun b => b.headD []))
        target (blocks.map (fun b => b.headD [])).length 0
        (((blocks.map (fun b => b.headD [])).length : Int) - 1) (-1)
        (by omega) (by omega) (by omega) (Or.inl rfl)
      rw [show findChunkAux (blocks.map (fun b => b.headD [])) target 0
          (((blocks.map (fun b => b.headD [])).length : Int) - 1) (-1)
          = findChunk (blocks.map (fun b => b.headD [])) target from rfl]
        at hresult
      rcases hresult with hm1 | ⟨hge, hlen, hcmp⟩
      · exact absurd hm1 (by omega)
      · set j := (findChunk (blocks.map (fun b => b.headD [])) target).toNat
          with hj
        have hjlen : j < blocks.length := by
          have := hlen
          simp only [List.length_map] at this
          omega
        have hentry : (blocks.map (fun b => b.headD [])).getD j []
            = (blocks.getD j []).headD [] := by
          rw [List.getD_eq_getElem _ _ (by simpa using hjlen),
            List.getD_eq_getElem _ _ hjlen]
          simp
        have hjle : compareBytes ((blocks.getD j []).headD []) target ≤ 0 := by
          rw [← hentry]
          have hsw := compareBytes_swap
            ((blocks.map (fun b => b.headD [])).getD j []) target
          omega
        have hkeylt : ∀ k ∈ (blocks.take j).flatten,
            compareBytes k target < 0 := by
          intro k hk
          obtain ⟨b, hb, hkb⟩ := List.mem_flatten.mp hk
          obtain ⟨i, hi, hgi⟩ := List.mem_iff_getElem.mp hb
          have hij : i < j := by
            have := hi
            simp [List.length_take] at this
            omega
          have hilen : i < blocks.length := by omega
          have hbi : blocks.getD i [] = b := by
            rw [List.getD_eq_getElem _ _ hilen, ← List.getElem_take, hgi]
          have hlt1 : compareBytes k ((blocks.getD j []).headD []) < 0 :=
            blocks_before_lt blocks hne hchain (j - i - 1) i j (by omega)
              hjlen k (by rw [hbi]; exact hkb)
          exact compareBytes_lt_of_lt_of_le hlt1 hjle
        conv_rhs => rw [← List.take_append_drop j blocks,
          List.flatten_append]
        rw [dropWhile_append_all _ _ _
          (fun x hx => by simpa using hkeylt x hx)]
  refine ⟨heq, ?_⟩
  rw [heq]
  rw [List.dropWhile_eq_nil_iff]
  constructor
  · intro hall k hk
    simpa using hall k hk
  · intro hall k hk
    simpa using hall k hk

/-- C5 witness: seeking `[5]` in blocks `[[2],[4]]` and `[[6],[8]]` lands on
the suffix `[[6],[8]]`, whose head `[6]` is the first cell ≥ the target. -/
theorem seekToKey_spec_witness :
    seekToKey [[[2], [4]], [[6], [8]]] [5]
      = ([[[2], [4]], [[6], [8]]] : List (List Bytes)).flatten.dropWhile
          (fun k => decide (compareBytes k [5] < 0)) ∧
    (seekToKey [[[2], [4]], [[6], [8]]] [5] = [] ↔
      ∀ k ∈ ([[[2], [4]], [[6], [8]]] : List (List Bytes)).flatten,
        compareBytes k [5] < 0) :=
  seekToKey_spec [[[2], [4]], [[6], [8]]] [5] (by decide)
    (by
      intro i hi
      simp only [List.length_cons, List.length_nil] at hi
      have h0 : i = 0 := by omega
      subst h0
      decide)

end Riverbed
